import Mathlib

/-!
Verification of the Co-STORM knowledge-base insertion and reorganization engine
(`knowledge_storm/collaborative_storm/modules/information_insertion_module.py` and
`article_generation.py`), shallowly embedded in Lean 4.

Python strings are modelled as Lean `String`/`List Char`; Python `set` of ids as a
duplicate-free `List Nat` (set-insert discipline); the LLM and embedding collaborators
are abstract function parameters, as the spec treats them (external collaborators).
The `KnowledgeNode`/`KnowledgeBase` data class file is not part of the sources, so
those operations are modelled from the spec (see the doc comments marked
"Modelled from the spec").
-/

namespace CoStorm

/-! ## String utilities modelling the Python text scrubbing -/

/-- Python `str.startswith`: `listStartsWith l p` is true iff `p` is an initial
segment of `l`. -/
def listStartsWith : List Char → List Char → Bool
  | _, [] => true
  | [], _ :: _ => false
  | c :: cs, p :: ps => c = p && listStartsWith cs ps

/-- Python `s.startswith(p)` on strings. -/
def strStartsWith (s p : String) : Bool :=
  listStartsWith s.toList p.toList

/-- Splits `l` at the first occurrence of the (nonempty) pattern `pat`:
returns `(before, after)` where `after` excludes the matched pattern, or `none`
when `pat` does not occur. An empty pattern matches at position 0. -/
def splitAtSub : List Char → List Char → Option (List Char × List Char)
  | _, [] => some ([], [])
  | [], _ :: _ => none
  | c :: cs, p :: ps =>
    if listStartsWith (c :: cs) (p :: ps) then some ([], (c :: cs).drop (p :: ps).length)
    else
      match splitAtSub cs (p :: ps) with
      | some (a, b) => some (c :: a, b)
      | none => none

/-- Python `pat in s` substring test. -/
def containsSub (s pat : String) : Bool :=
  (splitAtSub s.toList pat.toList).isSome

/-- Python `re.sub(pat + r'.*', '', s, flags=re.DOTALL)`: everything from the first
occurrence of the literal `pat` to the end of the string is removed. -/
def truncFrom (s pat : String) : String :=
  match splitAtSub s.toList pat.toList with
  | some (a, _) => String.mk a
  | none => s

/-- Helper for global literal replacement by the empty string (`re.sub(pat, '', s)`).
The fuel is an upper bound on the number of replacements; `eraseAll` supplies
`length + 1`, which is always enough because each step consumes at least one
character of the input. -/
def eraseAllAux : Nat → List Char → List Char → List Char
  | 0, s, _ => s
  | fuel + 1, s, pat =>
    match splitAtSub s pat with
    | some (a, b) => a ++ eraseAllAux fuel b pat
    | none => s

/-- Python `re.sub(pat, '', s)` for a literal (regex-free) pattern. -/
def eraseAll (s pat : String) : String :=
  String.mk (eraseAllAux (s.toList.length + 1) s.toList pat.toList)

/-- Helper for `re.sub(open + '.*?' + close, '', s, flags=re.DOTALL)`: repeatedly
removes the span from the first `openPat` to the first following `closePat`
(shortest match), leaving the string unchanged once no complete span remains. -/
def eraseSpansAux : Nat → List Char → List Char → List Char → List Char
  | 0, s, _, _ => s
  | fuel + 1, s, openPat, closePat =>
    match splitAtSub s openPat with
    | none => s
    | some (a, b) =>
      match splitAtSub b closePat with
      | none => s
      | some (_, c) => a ++ eraseSpansAux fuel c openPat closePat

/-- Removal of `<think>...</think>` spans and stray `<think>`/`</think>` tags, the
three `re.sub` calls used throughout the module on raw model output. -/
def removeThinkTags (s : String) : String :=
  eraseAll
    (eraseAll (String.mk (eraseSpansAux (s.toList.length + 1) s.toList
        "<think>".toList "</think>".toList)) "<think>")
    "</think>"

/-- Python `s.strip()` (whitespace from both ends). -/
def stripWs (s : String) : String :=
  String.mk (((s.toList.dropWhile Char.isWhitespace).reverse.dropWhile
    Char.isWhitespace).reverse)

/-- Python `s.strip("-")`: removes `-` characters from both ends only. -/
def stripDash (s : String) : String :=
  String.mk (((s.toList.dropWhile (· = '-')).reverse.dropWhile (· = '-')).reverse)

/-- Modelled from the spec: `trim_output_after_hint` lives in
`collaborative_storm_utils.py`, which is not among the sources; per its uses in the
spec it returns the text after the first occurrence of `hint` (stripped), or the
whole string stripped when the hint is absent. -/
def trim_output_after_hint (s hint : String) : String :=
  match splitAtSub s.toList hint.toList with
  | some (_, b) => stripWs (String.mk b)
  | none => stripWs s

/-- Numeric value of a digit run. -/
def digitsToNat (l : List Char) : Nat :=
  l.foldl (fun acc c => acc * 10 + (c.toNat - '0'.toNat)) 0

/-- First maximal digit run in the character list, as a number (the regex `(\d+)`
under `re.search`). -/
def firstNatRun : List Char → Option Nat
  | [] => none
  | c :: cs =>
    if c.isDigit then some (digitsToNat (c :: cs.takeWhile Char.isDigit))
    else firstNatRun cs

/-- First digit run after the first occurrence of the literal `pat`
(the regex `pat.*?(\d+)`; the Python pattern additionally refuses to cross a
newline, which cannot matter after the hint-trimming done by the caller). -/
def natAfter (s pat : String) : Option Nat :=
  match splitAtSub s.toList pat.toList with
  | some (_, b) => firstNatRun b
  | none => none

/-- First bracketed digit run `[123]` in the character list (the regex `\[(\d+)\]`). -/
def firstBracketNat : List Char → Option Nat
  | [] => none
  | c :: cs =>
    if c = '[' then
      let run := cs.takeWhile Char.isDigit
      if run ≠ [] ∧ (cs.drop run.length).headD ' ' = ']' then some (digitsToNat run)
      else firstBracketNat cs
    else firstBracketNat cs

/-- First bracketed digit run after the first occurrence of `pat`
(the regex `pat.*?\[(\d+)\]`). -/
def bracketNatAfter (s pat : String) : Option Nat :=
  match splitAtSub s.toList pat.toList with
  | some (_, b) => firstBracketNat b
  | none => none

/-! ## InsertInformationModule._parse_selected_index -/

/-- Function `InsertInformationModule._parse_selected_index`: tries the four regex patterns in
order (index after `最佳放置：`/`最佳放置:`, bracketed index after
`Best placement：`/`Best placement:`, first bracketed number, first number).  For
the two-colon character classes the fullwidth variant is searched before the ASCII
one, a harmless approximation of the leftmost regex match.  When the string has no
digits all patterns fail, the `无合理选择` branch and the final `int(...)` fallback
both produce `None`, so the function returns `none`. -/
def parse_selected_index (s : String) : Option Int :=
  (((((natAfter s "最佳放置：").orElse (fun _ => natAfter s "最佳放置:")).orElse
      (fun _ => (bracketNatAfter s "Best placement：").orElse
        (fun _ => bracketNatAfter s "Best placement:"))).orElse
      (fun _ => firstBracketNat s.toList)).orElse
      (fun _ => firstNatRun s.toList)).map (fun n => (n : Int))

/-! ## InsertInformationModule._get_navigation_choice -/

/-- The cleaning pipeline of `_get_navigation_choice` (lines 91-101): drop everything
from `Reasoning:` on; if the result does not already start with one of the three
action words, strip `<think>` blocks; drop `选择：` labels when the text starts with
`选择`; finally Python's `.strip("-").strip()`. -/
def cleanNavOutput (predicted_action : String) : String :=
  let a := truncFrom predicted_action "Reasoning:"
  let c :=
    if strStartsWith a "insert" || strStartsWith a "step" || strStartsWith a "create" then a
    else removeThinkTags a
  let c := if strStartsWith c "选择" then eraseAll c "选择：" else c
  stripWs (stripDash c)

/-- Function `InsertInformationModule._get_navigation_choice` after the model call: maps the
cleaned output to an action `(action_type, node_name)` by string prefix, raising
(modelled as `Except.error`) when no prefix matches. -/
def get_navigation_choice (predicted_action : String) : Except String (String × String) :=
  let c := cleanNavOutput predicted_action
  if strStartsWith c "insert" || strStartsWith c "- insert" then .ok ("insert", "")
  else if strStartsWith c "step" || strStartsWith c "- step" then
    .ok ("step", trim_output_after_hint c "step:")
  else if strStartsWith c "create" || strStartsWith c "- create" then
    .ok ("create", trim_output_after_hint c "create:")
  else .error ("UndefinedActionError: " ++ predicted_action ++ "/" ++ c)

/-! ## InsertInformationModule.choose_candidate_from_embedding_ranking -/

/-- The result record of a placement decision (`dspy.Prediction` with the two fields
this module sets). -/
structure PlacementPrediction where
  information_placement : String
  note : String
deriving DecidableEq, Repr

/-- Python `sep.join(items)`. -/
def joinSep (sep : String) : List String → String
  | [] => ""
  | [x] => x
  | x :: y :: rest => x ++ sep ++ joinSep sep (y :: rest)

/-- Insertion of one scored outline into a list sorted by descending score. -/
def insertDescBy (x : Int × String) : List (Int × String) → List (Int × String)
  | [] => [x]
  | y :: ys => if y.1 ≤ x.1 then x :: y :: ys else y :: insertDescBy x ys

/-- Sorting scored outlines by descending score. -/
def sortDescPairs : List (Int × String) → List (Int × String)
  | [] => []
  | x :: xs => insertDescBy x (sortDescPairs xs)

/-- Function `InsertInformationModule._get_sorted_embed_sim_section` for a nonempty embedding
matrix: the outlines sorted by descending cosine similarity to the query
(`np.argsort` followed by reversal; the float similarity vector of the external
encoder is abstracted as an integer score list, and ties may be ordered differently,
which no caller depends on). -/
def get_sorted_embed_sim_section (scores : List Int) (outlines : List String) :
    List String :=
  (sortDescPairs (scores.zip outlines)).map Prod.snd

/-- Function `InsertInformationModule.choose_candidate_from_embedding_ranking`.  The raw model
`decision` string, the similarity `scores` (empty-embedding case flagged by
`hasEmbedding = false`, where the code falls back to the unsorted outlines) and the
候选 `outlines` are inputs; returns the chosen placement or `none`. -/
def choose_candidate_from_embedding_ranking (decision : String) (scores : List Int)
    (hasEmbedding : Bool) (outlines : List String) (top_N_candidates : Nat) :
    Option PlacementPrediction :=
  let sorted_candidates :=
    if hasEmbedding then get_sorted_embed_sim_section scores outlines else outlines
  let considered_candidates := sorted_candidates.take (min sorted_candidates.length top_N_candidates)
  let d := removeThinkTags decision
  if containsSub d "最佳放置：" then
    match parse_selected_index (trim_output_after_hint d "最佳放置：") with
    | some i =>
      if i - 1 < (sorted_candidates.length : Int) ∧ 0 ≤ i - 1 then
        some ⟨sorted_candidates.getD (i - 1).toNat "",
              "Choosing from:\n" ++ joinSep ", " considered_candidates⟩
      else none
    | none => none
  else none

/-! ## The knowledge tree (modelled from the spec)

`KnowledgeNode` and `KnowledgeBase` live in `knowledge_storm/dataclass.py`, which is
not among the sources; the data model and the operations below follow spec sections
3, 4.1 and 4.2.  Identity of a node is its name path from the root (names are unique
among siblings per the spec invariant).  A node's Python `content` set is a
duplicate-free id list. -/

inductive KnowledgeNode where
  | node (name : String) (content : List Nat) (synthesize_output : Option String)
         (need_regenerate_synthesize_output : Bool) (children : List KnowledgeNode)

namespace KnowledgeNode

def name : KnowledgeNode → String
  | .node n _ _ _ _ => n

def content : KnowledgeNode → List Nat
  | .node _ c _ _ _ => c

def synthesize_output : KnowledgeNode → Option String
  | .node _ _ s _ _ => s

def need_regenerate_synthesize_output : KnowledgeNode → Bool
  | .node _ _ _ r _ => r

def children : KnowledgeNode → List KnowledgeNode
  | .node _ _ _ _ ch => ch

def withChildren : KnowledgeNode → List KnowledgeNode → KnowledgeNode
  | .node nm c s r _, ch => .node nm c s r ch

def withContent : KnowledgeNode → List Nat → KnowledgeNode
  | .node nm _ s r ch, c => .node nm c s r ch

/-- Python `node.content.add(id)` (set semantics) followed by marking the dirty flag,
spec 4.2 step 4. -/
def addContentId : KnowledgeNode → Nat → KnowledgeNode
  | .node nm c s _ ch, id => .node nm (if id ∈ c then c else c ++ [id]) s true ch

/-- A freshly created node (insertion "create" decision or expansion). -/
def fresh (nm : String) : KnowledgeNode := .node nm [] none false []

mutual

/-- Modelled from the spec (4.1): `collect_all_content`, the union of this node's
content and all descendants'. -/
def collect_all_content : KnowledgeNode → List Nat
  | .node _ c _ _ ch => c ++ collectChildren ch

def collectChildren : List KnowledgeNode → List Nat
  | [] => []
  | n :: rest => collect_all_content n ++ collectChildren rest

end

/-- First child with the given name (Python's `for child in children: if child.name
== name`). -/
def getChild? (ch : List KnowledgeNode) (nm : String) : Option KnowledgeNode :=
  ch.find? (fun c => c.name == nm)

/-- Replaces the first child with the given name (the in-place mutation of that
child object in Python). -/
def replaceChildNamed : List KnowledgeNode → String → KnowledgeNode → List KnowledgeNode
  | [], _, _ => []
  | c :: rest, nm, c' =>
    if c.name == nm then c' :: rest else c :: replaceChildNamed rest nm c'

/-- Walks a child-name path below `n` (not including `n`'s own name). -/
def locateRel : KnowledgeNode → List String → Option KnowledgeNode
  | n, [] => some n
  | n, s :: rest =>
    match getChild? n.children s with
    | some c => locateRel c rest
    | none => none

/-- Resolves a full name path (starting with the root's own name), the shape of
`get_path_from_root` output. -/
def locateFull (n : KnowledgeNode) : List String → Option KnowledgeNode
  | [] => none
  | s :: rest => if s == n.name then locateRel n rest else none

/-- Rebuilds the tree after applying `f` to the node at a child-name path below
`n`; fails when the path does not resolve or `f` fails. -/
def modifyRel : KnowledgeNode → List String → (KnowledgeNode → Except String KnowledgeNode) →
    Except String KnowledgeNode
  | n, [], f => f n
  | n, s :: rest, f =>
    match getChild? n.children s with
    | some c =>
      match modifyRel c rest f with
      | .ok c' => .ok (n.withChildren (replaceChildNamed n.children s c'))
      | .error e => .error e
    | none => .error ("PathNotFoundError: " ++ s)

/-- Function `modifyRel` for a full name path starting with `n`'s own name. -/
def modifyFull (n : KnowledgeNode) (path : List String)
    (f : KnowledgeNode → Except String KnowledgeNode) : Except String KnowledgeNode :=
  match path with
  | [] => .error "PathNotFoundError: empty path"
  | s :: rest => if s == n.name then modifyRel n rest f else .error ("PathNotFoundError: " ++ s)

/-- Modelled from the spec (4.2 steps 2-4): walks the remaining path segments below
the current node, matching children by name; on a missing segment creates it when
`create` is set and fails with `PathNotFoundError` otherwise; at the final node adds
the information id and marks the dirty flag. -/
def walkInsert : KnowledgeNode → List String → Nat → Bool → Except String KnowledgeNode
  | n, [], id, _ => .ok (n.addContentId id)
  | n, s :: rest, id, create =>
    match getChild? n.children s with
    | some c =>
      match walkInsert c rest id create with
      | .ok c' => .ok (n.withChildren (replaceChildNamed n.children s c'))
      | .error e => .error e
    | none =>
      if create then
        match walkInsert (fresh s) rest id create with
        | .ok c' => .ok (n.withChildren (n.children ++ [c']))
        | .error e => .error e
      else .error ("PathNotFoundError: " ++ s)

/-- Function `walkInsert` for a full placement path whose first segment must name the subtree
root the walk starts from (the shape produced by `get_path_from_root(root)`). -/
def walkInsertFull (n : KnowledgeNode) (path : List String) (id : Nat) (create : Bool) :
    Except String KnowledgeNode :=
  match path with
  | [] => .error "PathNotFoundError: empty path"
  | s :: rest =>
    if s == n.name then walkInsert n rest id create
    else .error ("PathNotFoundError: " ++ s)

end KnowledgeNode

/-! ## Information records and the KnowledgeBase -/

/-- An `Information` record; only the fields this module reads are modelled
(`url` and the `meta` mapping holding `question` and `query`). -/
structure Information where
  url : String
  meta : List (String × String)
deriving DecidableEq, Repr

/-- Python `info.meta.get(key, "")`. -/
def metaGet (m : List (String × String)) (k : String) : String :=
  match m.find? (fun p => p.1 == k) with
  | some p => p.2
  | none => ""

/-- The `(question, query)` intent pair used as the routing key
(`info.meta.get("question", ""), info.meta.get("query", "")`). -/
def intentOf (info : Information) : String × String :=
  (metaGet info.meta "question", metaGet info.meta "query")

/-- The registration key of the id map, spec 3: "two Information objects with the
same url retrieved for the same intent are treated as duplicates". -/
def infoKey (info : Information) : String × String × String :=
  (info.url, metaGet info.meta "question", metaGet info.meta "query")

/-- Modelled from the spec (3): the knowledge base owns the root node, the
monotonically growing `info_uuid_to_info_dict` id map (kept as an ordered
association list) and the `next_id` counter. -/
structure KnowledgeBase where
  root : KnowledgeNode
  info_uuid_to_info_dict : List (Nat × Information)
  next_id : Nat

/-- Modelled from the spec (4.2 step 1): registers the information in the id map
when no entry with the same url + intent key exists, returning its (new or
existing) id. -/
def register_info (kb : KnowledgeBase) (info : Information) : KnowledgeBase × Nat :=
  match kb.info_uuid_to_info_dict.find? (fun p => infoKey p.2 == infoKey info) with
  | some p => (kb, p.1)
  | none =>
    ({ kb with
        info_uuid_to_info_dict := kb.info_uuid_to_info_dict ++ [(kb.next_id, info)],
        next_id := kb.next_id + 1 },
     kb.next_id)

/-- Lookup in the id map (`info_uuid_to_info_dict[index]`, a `KeyError` when
absent). -/
def lookupInfo (m : List (Nat × Information)) (id : Nat) : Except String Information :=
  match m.find? (fun p => p.1 == id) with
  | some p => .ok p.2
  | none => .error "KeyError"

/-- Modelled from the spec (4.2): `KnowledgeBase.insert_information`.  Registers the
information, then walks the full placement `path` from the subtree root located at
`rootPath` (the full path of the `root=` argument; `[kb.root.name]` when it is
`None`), creating missing nodes only when `create` (i.e. `missing_node_handling ==
"create"`) is set, and files the id at the final node. -/
def insert_information (kb : KnowledgeBase) (rootPath : List String) (path : List String)
    (info : Information) (create : Bool) : Except String KnowledgeBase :=
  let pr := register_info kb info
  match pr.1.root.modifyFull rootPath (fun sub => sub.walkInsertFull path pr.2 create) with
  | .ok root' => .ok { pr.1 with root := root' }
  | .error e => .error e

/-- Modelled from the spec (4.1 `insert_child`): `KnowledgeBase.insert_node` creates
and appends a new child under the parent at `parentPath`, failing with
`DuplicateNameError` when a sibling of that name exists. -/
def insert_node (kb : KnowledgeBase) (parentPath : List String) (nm : String) :
    Except String KnowledgeBase :=
  match kb.root.modifyFull parentPath (fun parent =>
      if (KnowledgeNode.getChild? parent.children nm).isSome then
        .error ("DuplicateNameError: " ++ nm)
      else .ok (parent.withChildren (parent.children ++ [KnowledgeNode.fresh nm]))) with
  | .ok root' => .ok { kb with root := root' }
  | .error e => .error e

/-! ## InsertInformationModule.forward -/

/-- An abstract placement-decision collaborator: given the current knowledge base,
the full path of the insertion subtree root and an intent, either returns a full
placement path (the embedding shortcut or the layer-by-layer navigation of
`process_intent`'s `try` block) or raises.  `process_intent` catches the exception
and degrades it to `none`. -/
def DecideFn := KnowledgeBase → List String → String × String → Except String (List String)

def exceptToOption : Except String α → Option α
  | .ok a => some a
  | .error _ => none

def exceptIsOk : Except String α → Bool
  | .ok _ => true
  | .error _ => false

/-- Function `_info_list_to_intent_mapping`: the ordered keys of the intent dict, one per
distinct `(question, query)` pair in first-appearance order. -/
def dedupFirst (l : List (String × String)) : List (String × String) :=
  l.foldl (fun acc x => if x ∈ acc then acc else acc ++ [x]) []

/-- Lookup in the decided-placements association list. -/
def assocFind (placements : List ((String × String) × Option (List String)))
    (it : String × String) : Option (List String) :=
  match placements.find? (fun p => p.1 == it) with
  | some p => p.2
  | none => none

/-- Function `forward`'s inner `insert_info_to_kb`: a `None` placement is skipped, otherwise
the information is inserted with `missing_node_handling` `"create"` exactly when
`allow_create_new_node` is set. -/
def insert_info_to_kb (kb : KnowledgeBase) (rootPath : List String)
    (placement : Option (List String)) (info : Information) (allow_create : Bool) :
    Except String KnowledgeBase :=
  match placement with
  | none => .ok kb
  | some path => insert_information kb rootPath path info allow_create

namespace InsertInformationModule

/-- The mutation phase of `forward`: files each information (in input order) at its
intent's decided placement and collects the returned
`(info, placement_prediction)` pairs. -/
def forwardFold (placements : List ((String × String) × Option (List String)))
    (kb : KnowledgeBase) (rootPath : List String) (allow_create : Bool) :
    List Information → Except String (KnowledgeBase × List (Information × Option (List String)))
  | [] => .ok (kb, [])
  | info :: rest =>
    let pl := assocFind placements (intentOf info)
    match insert_info_to_kb kb rootPath pl info allow_create with
    | .error e => .error e
    | .ok kb' =>
      match forwardFold placements kb' rootPath allow_create rest with
      | .ok (kbf, prs) => .ok (kbf, (info, pl) :: prs)
      | .error e => .error e

/-- Function `InsertInformationModule.forward` on a batch.  In both the thread-pool branch
(`allow_create_new_node = False`) and the sequential branch (`= True`) the source
first resolves one placement per distinct intent via `process_intent` — which
reads but never mutates the tree, so every decision sees the knowledge base as it
was on entry — and only then runs the insertion loop over `information`. -/
def forward (decideE : DecideFn) (kb : KnowledgeBase) (information : List Information)
    (allow_create_new_node : Bool) (insert_root : List String) :
    Except String (KnowledgeBase × List (Information × Option (List String))) :=
  let intents := dedupFirst (information.map intentOf)
  let placements := intents.map (fun it => (it, exceptToOption (decideE kb insert_root it)))
  forwardFold placements kb insert_root allow_create_new_node information

end InsertInformationModule

/-! ## ExpandNodeModule -/

namespace ExpandNodeModule

/-- The citation-bracket scrub applied to each proposed sub-node name in
`_expand_node` (`re.sub(r"\[.*?\]", "", subsection_name)`). -/
def removeCitationBrackets (s : String) : String :=
  String.mk (eraseSpansAux (s.toList.length + 1) s.toList ['['] [']'])

/-- The node-creation loop of `_expand_node`: inserts one new child per proposed
sub-node name (bracket-scrubbed) under the node at `nodePath`. -/
def insertNewNodes (nodePath : List String) :
    KnowledgeBase → List String → Except String KnowledgeBase
  | kb, [] => .ok kb
  | kb, nm :: rest =>
    match insert_node kb nodePath (removeCitationBrackets nm) with
    | .ok kb' => insertNewNodes nodePath kb' rest
    | .error e => .error e

/-- Gathering the `Information` objects of the node's cited ids
(`original_cited_information`); a missing id is Python's `KeyError`. -/
def gatherInfos (m : List (Nat × Information)) : List Nat → Except String (List Information)
  | [] => .ok []
  | id :: rest =>
    match lookupInfo m id with
    | .ok info =>
      match gatherInfos m rest with
      | .ok infos => .ok (info :: infos)
      | .error e => .error e
    | .error e => .error e

/-- Lines 422-433 of `_expand_node` once expansion is decided: create the proposed
sub-nodes, read the node's cited information and clear its own content set.
Returns the intermediate knowledge base and the information list handed to the
insertion module. -/
def expandStage1 (kb : KnowledgeBase) (nodePath : List String)
    (subsection_names : List String) : Except String (KnowledgeBase × List Information) :=
  match insertNewNodes nodePath kb subsection_names with
  | .error e => .error e
  | .ok kb1 =>
    match kb1.root.locateFull nodePath with
    | none => .error "PathNotFoundError: node to expand"
    | some node =>
      match gatherInfos kb1.info_uuid_to_info_dict node.content with
      | .error e => .error e
      | .ok infos =>
        match kb1.root.modifyFull nodePath (fun m => .ok (m.withContent [])) with
        | .ok root' => .ok ({ kb1 with root := root' }, infos)
        | .error e => .error e

/-- Function `ExpandNodeModule._expand_node` for the node at `nodePath`, with the
collaborator's already-parsed proposal list `subsection_names`
(`_get_expand_subnode_names` output): a proposal of at most one name leaves the
knowledge base untouched; otherwise the sub-nodes are created, the node's content
cleared and its former information re-inserted into the subtree with node creation
disabled. -/
def _expand_node (decideE : DecideFn) (kb : KnowledgeBase) (nodePath : List String)
    (subsection_names : List String) : Except String KnowledgeBase :=
  if subsection_names.length ≤ 1 then .ok kb
  else
    match expandStage1 kb nodePath subsection_names with
    | .error e => .error e
    | .ok (kb2, infos) =>
      match InsertInformationModule.forward decideE kb2 infos false nodePath with
      | .ok (kb3, _) => .ok kb3
      | .error e => .error e

mutual

/-- Function `_find_first_node_to_expand`: depth-first pre-order scan for the first node not
yet expanded whose content size reaches the trigger count.  Nodes are identified by
their full name path (unique because sibling names are unique). -/
def find_first_node_to_expand (trigger : Nat) (expanded : List (List String)) :
    List String → KnowledgeNode → Option (List String)
  | above, .node nm c _ _ ch =>
    let myPath := above ++ [nm]
    if myPath ∉ expanded ∧ trigger ≤ c.length then some myPath
    else findFirstInChildren trigger expanded myPath ch

def findFirstInChildren (trigger : Nat) (expanded : List (List String)) :
    List String → List KnowledgeNode → Option (List String)
  | _, [] => none
  | myPath, child :: rest =>
    match find_first_node_to_expand trigger expanded myPath child with
    | some p => some p
    | none => findFirstInChildren trigger expanded myPath rest

end

/-- The state of `ExpandNodeModule.forward`'s loop when the fuel runs out or the
scan finds nothing (`done = true` only in the latter case). -/
structure ExpandRun where
  kb : KnowledgeBase
  expanded : List (List String)
  done : Bool

/-- Function `ExpandNodeModule.forward`, fuel-indexed because the source's `while True` loop
has no a-priori bound: re-scan from the root, expand the found node, remember it in
`expanded_nodes`, stop when the scan comes back empty.  `propose` abstracts
`_get_expand_subnode_names` (the expansion-proposal collaborator plus its text
cleaning). -/
def forwardFuel (decideE : DecideFn) (propose : KnowledgeBase → List String → List String)
    (trigger : Nat) : Nat → KnowledgeBase → List (List String) → Except String ExpandRun
  | 0, kb, expanded => .ok ⟨kb, expanded, false⟩
  | fuel + 1, kb, expanded =>
    match find_first_node_to_expand trigger expanded [] kb.root with
    | none => .ok ⟨kb, expanded, true⟩
    | some p =>
      match _expand_node decideE kb p (propose kb p) with
      | .ok kb' => forwardFuel decideE propose trigger fuel kb' (expanded ++ [p])
      | .error e => .error e

/-- Termination of `ExpandNodeModule.forward` on a given knowledge base: some fuel
suffices for the loop to reach the empty-scan exit. -/
def forwardTerminates (decideE : DecideFn) (propose : KnowledgeBase → List String → List String)
    (trigger : Nat) (kb : KnowledgeBase) : Prop :=
  ∃ fuel run, forwardFuel decideE propose trigger fuel kb [] = .ok run ∧ run.done = true

end ExpandNodeModule

/-! ## ArticleGenerationModule -/

namespace ArticleGenerationModule

/-- Function `ArticleGenerationModule.gen_section`: an empty-content node yields the empty
string; otherwise a valid cache (`synthesize_output` nonempty and not dirty) is
returned, else the section-writer collaborator is consulted (`writer` abstracts the
model call, the `<think>` scrub and `remove_uncompleted_sentences_with_citations`;
the cache write-back does not affect the returned text). -/
def gen_section (writer : KnowledgeNode → String) (node : KnowledgeNode) : String :=
  if node.content.length = 0 then ""
  else
    match node.synthesize_output with
    | some s =>
      if s ≠ "" ∧ node.need_regenerate_synthesize_output = false then s else writer node
    | none => writer node

/-- Python `s.split("\n")` on the character list (an empty string yields `[""]`). -/
def splitNl : List Char → List (List Char)
  | [] => [[]]
  | x :: xs =>
    match splitNl xs with
    | [] => if x = '\n' then [[], []] else [[x]]
    | r :: rs => if x = '\n' then [] :: r :: rs else (x :: r) :: rs

/-- Python `"\n".join(lines)`. -/
def joinNl : List String → String
  | [] => ""
  | [x] => x
  | x :: y :: rest => x ++ "\n" ++ joinNl (y :: rest)

/-- Function `forward`'s `_node_generate_paragraph`: drops a leading line that repeats the
node name (after stripping whitespace, `*` and `#`). -/
def node_generate_paragraph (writer : KnowledgeNode → String) (node : KnowledgeNode) :
    String :=
  let p := gen_section writer node
  let lines := (splitNl p.toList).map String.mk
  let lines :=
    if eraseAll (eraseAll (stripWs (lines.headD "")) "*") "#" == node.name then
      lines.tail
    else lines
  joinNl lines

mutual

/-- Function `forward`'s `helper`: one `"#"*level + " " + name + "\n" + paragraph` entry per
node, pre-order (the source routes the paragraph through the `node_to_paragraph`
dict keyed by the node's path, which resolves to the same per-node paragraph). -/
def reportHelper (writer : KnowledgeNode → String) :
    KnowledgeNode → Nat → List String
  | n@(.node _ _ _ _ ch), level =>
    (String.mk (List.replicate level '#') ++ " " ++ n.name ++ "\n"
        ++ node_generate_paragraph writer n)
      :: reportChildren writer ch (level + 1)

def reportChildren (writer : KnowledgeNode → String) :
    List KnowledgeNode → Nat → List String
  | [], _ => []
  | c :: rest, level => reportHelper writer c level ++ reportChildren writer rest level

end

/-- Function `ArticleGenerationModule.forward`: the concatenated report, one helper run per
root child at level 1, joined with newlines (the root itself is not synthesized). -/
def forward (writer : KnowledgeNode → String) (kb : KnowledgeBase) : String :=
  joinNl (reportChildren writer kb.root.children 1)

end ArticleGenerationModule

/-! ## Derived notions used by the theorems -/

namespace KnowledgeNode

/-- The content id set of a subtree. -/
def ccF (n : KnowledgeNode) : Finset Nat := (collect_all_content n).toFinset

/-- The content id set of the subtree at a full path, empty when the path does not
resolve. -/
def ccAtFull (root : KnowledgeNode) (q : List String) : Finset Nat :=
  match root.locateFull q with
  | some m => ccF m
  | none => ∅

/-- The name of the node reached by a child-name path, when it resolves. -/
def nameAt (n : KnowledgeNode) (q : List String) : Option String :=
  (n.locateRel q).map name

end KnowledgeNode

/-- A full placement path is insertable from the subtree at `rp`: the subtree root
resolves, the path starts with its name, and (unless node creation is on) the rest
of the path resolves to an existing node. -/
def placementResolves (root : KnowledgeNode) (rp p : List String) (create : Bool) : Prop :=
  ∃ sub, root.locateFull rp = some sub ∧
    ∃ s rest, p = s :: rest ∧ s = sub.name ∧
      (create = true ∨ (sub.locateRel rest).isSome = true)

/-- The id-map keys (url + intent) are pairwise distinct, the dedup invariant of
spec section 3. -/
def keysNodup (m : List (Nat × Information)) : Prop :=
  (m.map (fun pr => infoKey pr.2)).Nodup

/-! ## Basic lemmas about the tree operations -/

namespace KnowledgeNode

@[simp] theorem name_node : (KnowledgeNode.node nm c s r ch).name = nm := rfl

@[simp] theorem content_node : (KnowledgeNode.node nm c s r ch).content = c := rfl

@[simp] theorem children_node : (KnowledgeNode.node nm c s r ch).children = ch := rfl

@[simp] theorem synthesize_output_node :
    (KnowledgeNode.node nm c s r ch).synthesize_output = s := rfl

@[simp] theorem collect_node :
    collect_all_content (.node nm c s r ch) = c ++ collectChildren ch := rfl

@[simp] theorem collectChildren_nil : collectChildren [] = [] := rfl

@[simp] theorem collectChildren_cons :
    collectChildren (n :: rest) = collect_all_content n ++ collectChildren rest := rfl

theorem collectChildren_append (l₁ l₂ : List KnowledgeNode) :
    collectChildren (l₁ ++ l₂) = collectChildren l₁ ++ collectChildren l₂ := by
  induction l₁ with
  | nil => simp
  | cons c rest ih => simp [ih]

@[simp] theorem name_withChildren (n : KnowledgeNode) (ch : List KnowledgeNode) :
    (n.withChildren ch).name = n.name := by
  cases n; rfl

@[simp] theorem content_withChildren (n : KnowledgeNode) (ch : List KnowledgeNode) :
    (n.withChildren ch).content = n.content := by
  cases n; rfl

@[simp] theorem children_withChildren (n : KnowledgeNode) (ch : List KnowledgeNode) :
    (n.withChildren ch).children = ch := by
  cases n; rfl

@[simp] theorem name_addContentId (n : KnowledgeNode) (id : Nat) :
    (n.addContentId id).name = n.name := by
  cases n; rfl

@[simp] theorem children_addContentId (n : KnowledgeNode) (id : Nat) :
    (n.addContentId id).children = n.children := by
  cases n; rfl

@[simp] theorem name_withContent (n : KnowledgeNode) (c : List Nat) :
    (n.withContent c).name = n.name := by
  cases n; rfl

@[simp] theorem children_withContent (n : KnowledgeNode) (c : List Nat) :
    (n.withContent c).children = n.children := by
  cases n; rfl

@[simp] theorem content_withContent (n : KnowledgeNode) (c : List Nat) :
    (n.withContent c).content = c := by
  cases n; rfl

theorem ccF_node : ccF (.node nm c s r ch) = c.toFinset ∪ (collectChildren ch).toFinset := by
  simp [ccF]

theorem ccF_eq (n : KnowledgeNode) :
    ccF n = n.content.toFinset ∪ (collectChildren n.children).toFinset := by
  cases n; simp [ccF]

theorem ccF_withChildren (n : KnowledgeNode) (ch : List KnowledgeNode) :
    ccF (n.withChildren ch) = n.content.toFinset ∪ (collectChildren ch).toFinset := by
  cases n; simp [ccF, withChildren]

theorem ccF_addContentId (n : KnowledgeNode) (id : Nat) :
    ccF (n.addContentId id) = ccF n ∪ {id} := by
  cases n with
  | node nm c s r ch =>
    simp only [addContentId, ccF, collect_node, List.toFinset_append]
    by_cases h : id ∈ c
    · rw [if_pos h]
      ext a
      simp only [Finset.mem_union, List.mem_toFinset, Finset.mem_singleton]
      constructor
      · tauto
      · rintro ((ha | ha) | rfl)
        · exact Or.inl ha
        · exact Or.inr ha
        · exact Or.inl h
    · rw [if_neg h]
      ext a
      simp only [Finset.mem_union, List.mem_toFinset, Finset.mem_singleton,
        List.mem_append, List.mem_singleton]
      tauto

theorem ccF_fresh (nm : String) : ccF (fresh nm) = ∅ := rfl

@[simp] theorem getChild?_nil (nm : String) : getChild? [] nm = none := rfl

theorem getChild?_cons (d : KnowledgeNode) (rest : List KnowledgeNode) (nm : String) :
    getChild? (d :: rest) nm = if d.name = nm then some d else getChild? rest nm := by
  by_cases h : d.name = nm
  · rw [getChild?, List.find?_cons_of_pos _ (by simp [h]), if_pos h]
  · rw [getChild?, List.find?_cons_of_neg _ (by simp [h]), if_neg h]; rfl

theorem replaceChildNamed_cons (d : KnowledgeNode) (rest : List KnowledgeNode)
    (nm : String) (c' : KnowledgeNode) :
    replaceChildNamed (d :: rest) nm c' =
      if d.name = nm then c' :: rest else d :: replaceChildNamed rest nm c' := by
  by_cases h : d.name = nm <;> simp [replaceChildNamed, h]

/-- Function `getChild?` finds a child with exactly the requested name. -/
theorem getChild?_name (h : getChild? ch nm = some c) : c.name = nm := by
  have := List.find?_some h
  simpa using this

theorem getChild?_mem (h : getChild? ch nm = some c) : c ∈ ch :=
  List.mem_of_find?_eq_some h

/-- Effect of replacing the first child named `nm` on child lookup, provided the
replacement keeps the name. -/
theorem getChild?_replace (ch : List KnowledgeNode) (nm : String) (c c' : KnowledgeNode)
    (hfind : getChild? ch nm = some c) (hname : c'.name = nm) (t : String) :
    getChild? (replaceChildNamed ch nm c') t =
      if t = nm then some c' else getChild? ch t := by
  induction ch with
  | nil => simp at hfind
  | cons d rest ih =>
    rw [getChild?_cons] at hfind
    by_cases hd : d.name = nm
    · rw [if_pos hd] at hfind
      have hc : d = c := Option.some.inj hfind
      subst hc
      rw [replaceChildNamed_cons, if_pos hd]
      by_cases ht : t = nm
      · subst ht
        rw [getChild?_cons, if_pos hname, if_pos rfl]
      · rw [getChild?_cons, if_neg (by rw [hname]; exact fun h => ht h.symm), if_neg ht,
          getChild?_cons, if_neg (by rw [hd]; exact fun h => ht h.symm)]
    · rw [if_neg hd] at hfind
      rw [replaceChildNamed_cons, if_neg hd]
      by_cases ht : d.name = t
      · have htn : ¬t = nm := fun h => hd (ht.trans h)
        rw [getChild?_cons, if_pos ht, if_neg htn, getChild?_cons, if_pos ht]
      · rw [getChild?_cons, if_neg ht, ih hfind]
        by_cases htn : t = nm
        · rw [if_pos htn, if_pos htn]
        · rw [if_neg htn, if_neg htn, getChild?_cons, if_neg ht]

/-- Effect of replacing the first child named `nm` on the children's collected
content, provided the replacement adds exactly `S`. -/
theorem collectChildren_replace (ch : List KnowledgeNode) (nm : String)
    (c c' : KnowledgeNode) (S : Finset Nat) (hfind : getChild? ch nm = some c)
    (hcc : ccF c' = ccF c ∪ S) :
    (collectChildren (replaceChildNamed ch nm c')).toFinset =
      (collectChildren ch).toFinset ∪ S := by
  induction ch with
  | nil => simp at hfind
  | cons d rest ih =>
    rw [getChild?_cons] at hfind
    by_cases hd : d.name = nm
    · rw [if_pos hd] at hfind
      have hc : d = c := Option.some.inj hfind
      subst hc
      rw [replaceChildNamed_cons, if_pos hd]
      simp only [collectChildren_cons, List.toFinset_append]
      rw [show (collect_all_content c').toFinset = ccF c' from rfl, hcc,
        show (collect_all_content d).toFinset = ccF d from rfl]
      ac_rfl
    · rw [if_neg hd] at hfind
      rw [replaceChildNamed_cons, if_neg hd]
      simp only [collectChildren_cons, List.toFinset_append, ih hfind]
      ac_rfl

/-! ### Lemmas about `walkInsert` -/

theorem nameAt_addContentId (n : KnowledgeNode) (id : Nat) (q : List String) :
    nameAt (n.addContentId id) q = nameAt n q := by
  cases q with
  | nil => simp [nameAt, locateRel]
  | cons s rest => simp [nameAt, locateRel]

theorem walkInsert_name (segs : List String) :
    ∀ n id create n', walkInsert n segs id create = .ok n' → n'.name = n.name := by
  induction segs with
  | nil =>
    intro n id create n' h
    simp only [walkInsert] at h
    cases h
    simp
  | cons s rest ih =>
    intro n id create n' h
    simp only [walkInsert] at h
    cases hg : getChild? n.children s with
    | some c =>
      simp only [hg] at h
      cases hw : walkInsert c rest id create with
      | ok c' => simp only [hw] at h; cases h; simp
      | error e => simp only [hw] at h; cases h
    | none =>
      simp only [hg] at h
      by_cases hc : create
      · simp only [if_pos hc] at h
        cases hw : walkInsert (fresh s) rest id create with
        | ok c' => simp only [hw] at h; cases h; simp
        | error e => simp only [hw] at h; cases h
      · simp only [if_neg hc] at h; cases h

theorem walkInsert_cc (segs : List String) :
    ∀ n id create n', walkInsert n segs id create = .ok n' → ccF n' = ccF n ∪ {id} := by
  induction segs with
  | nil =>
    intro n id create n' h
    simp only [walkInsert] at h
    cases h
    exact ccF_addContentId n id
  | cons s rest ih =>
    intro n id create n' h
    simp only [walkInsert] at h
    cases hg : getChild? n.children s with
    | some c =>
      simp only [hg] at h
      cases hw : walkInsert c rest id create with
      | ok c' =>
        simp only [hw] at h; cases h
        rw [ccF_withChildren,
          collectChildren_replace n.children s c c' {id} hg (ih c id create c' hw),
          ccF_eq n]
        ac_rfl
      | error e => simp only [hw] at h; cases h
    | none =>
      simp only [hg] at h
      by_cases hc : create
      · simp only [if_pos hc] at h
        cases hw : walkInsert (fresh s) rest id create with
        | ok c' =>
          simp only [hw] at h; cases h
          have hcc := ih (fresh s) id create c' hw
          rw [ccF_fresh] at hcc
          rw [ccF_withChildren, collectChildren_append, List.toFinset_append,
            ccF_eq n]
          simp only [collectChildren_cons, collectChildren_nil, List.append_nil,
            List.toFinset_append]
          rw [show (collect_all_content c').toFinset = ccF c' from rfl, hcc]
          simp only [Finset.empty_union]
          ac_rfl
        | error e => simp only [hw] at h; cases h
      · simp only [if_neg hc] at h; cases h

theorem walkInsert_total_create (segs : List String) :
    ∀ n id, ∃ n', walkInsert n segs id true = .ok n' := by
  induction segs with
  | nil => intro n id; exact ⟨n.addContentId id, rfl⟩
  | cons s rest ih =>
    intro n id
    cases hg : getChild? n.children s with
    | some c =>
      obtain ⟨c', hc'⟩ := ih c id
      exact ⟨n.withChildren (replaceChildNamed n.children s c'),
        by simp only [walkInsert, hg, hc']⟩
    | none =>
      obtain ⟨c', hc'⟩ := ih (fresh s) id
      exact ⟨n.withChildren (n.children ++ [c']),
        by simp only [walkInsert, hg, if_pos trivial, hc']⟩

theorem walkInsert_ok_of_locate (segs : List String) :
    ∀ n id m, n.locateRel segs = some m →
      ∃ n', walkInsert n segs id false = .ok n' := by
  induction segs with
  | nil => intro n id m _; exact ⟨n.addContentId id, rfl⟩
  | cons s rest ih =>
    intro n id m h
    simp only [locateRel] at h
    cases hg : getChild? n.children s with
    | some c =>
      simp only [hg] at h
      obtain ⟨c', hc'⟩ := ih c id m h
      exact ⟨n.withChildren (replaceChildNamed n.children s c'),
        by simp only [walkInsert, hg, hc']⟩
    | none => simp only [hg] at h; cases h

/-- Existing nodes keep their names under an insertion walk (both creation modes):
node creation only appends children and content addition touches no name. -/
theorem walkInsert_nameAt (segs : List String) :
    ∀ n id create n', walkInsert n segs id create = .ok n' →
      ∀ q x, nameAt n q = some x → nameAt n' q = some x := by
  induction segs with
  | nil =>
    intro n id create n' h q x hq
    simp only [walkInsert] at h
    cases h
    rwa [nameAt_addContentId]
  | cons s rest ih =>
    intro n id create n' h q x hq
    simp only [walkInsert] at h
    cases hg : getChild? n.children s with
    | some c =>
      simp only [hg] at h
      cases hw : walkInsert c rest id create with
      | ok c' =>
        simp only [hw] at h; cases h
        have hcn : c'.name = c.name := walkInsert_name rest c id create c' hw
        have hcs : c.name = s := getChild?_name hg
        cases q with
        | nil => simpa [nameAt, locateRel] using hq
        | cons t qr =>
          simp only [nameAt, locateRel, children_withChildren] at hq ⊢
          rw [getChild?_replace n.children s c c' hg (hcn.trans hcs) t]
          by_cases ht : t = s
          · subst ht
            rw [if_pos rfl]
            simp only [hg] at hq
            exact ih c id create c' hw qr x hq
          · rw [if_neg ht]
            exact hq
      | error e => simp only [hw] at h; cases h
    | none =>
      simp only [hg] at h
      by_cases hc : create
      · simp only [if_pos hc] at h
        cases hw : walkInsert (fresh s) rest id create with
        | ok c' =>
          simp only [hw] at h; cases h
          cases q with
          | nil => simpa [nameAt, locateRel] using hq
          | cons t qr =>
            simp only [nameAt, locateRel, children_withChildren] at hq ⊢
            cases hgt : getChild? n.children t with
            | some c0 =>
              rw [hgt] at hq
              rw [show getChild? (n.children ++ [c']) t = some c0 by
                rw [getChild?, List.find?_append]
                simp only [getChild?] at hgt
                simp [hgt]]
              exact hq
            | none => rw [hgt] at hq; cases hq
        | error e => simp only [hw] at h; cases h
      · simp only [if_neg hc] at h; cases h

/-! ### Lemmas about `locateRel` and `modifyRel` -/

theorem locateRel_append (a : List String) :
    ∀ n b, locateRel n (a ++ b) = (locateRel n a).bind (fun m => locateRel m b) := by
  induction a with
  | nil => intro n b; simp [locateRel]
  | cons s rest ih =>
    intro n b
    simp only [List.cons_append, locateRel]
    cases hg : getChild? n.children s with
    | some c => simp [ih]
    | none => simp

/-- A successful `modifyRel` pins down the target node and the rewrite result. -/
theorem modifyRel_spec (q : List String) :
    ∀ n f n', modifyRel n q f = .ok n' →
      ∃ m fm, locateRel n q = some m ∧ f m = .ok fm := by
  induction q with
  | nil =>
    intro n f n' h
    exact ⟨n, n', rfl, h⟩
  | cons s rest ih =>
    intro n f n' h
    simp only [modifyRel] at h
    cases hg : getChild? n.children s with
    | some c =>
      simp only [hg] at h
      cases hm : modifyRel c rest f with
      | ok c' =>
        obtain ⟨m, fm, hl, hf⟩ := ih c f c' hm
        exact ⟨m, fm, by simp [locateRel, hg, hl], hf⟩
      | error e => simp only [hm] at h; cases h
    | none => simp only [hg] at h; cases h

/-- Existence of a successful `modifyRel` from a resolving path and a succeeding
rewrite. -/
theorem modifyRel_ok_of (q : List String) :
    ∀ n f m fm, locateRel n q = some m → f m = .ok fm →
      ∃ n', modifyRel n q f = .ok n' := by
  induction q with
  | nil =>
    intro n f m fm hl hf
    cases hl
    exact ⟨fm, hf⟩
  | cons s rest ih =>
    intro n f m fm hl hf
    simp only [locateRel] at hl
    cases hg : getChild? n.children s with
    | some c =>
      rw [hg] at hl
      obtain ⟨c', hc'⟩ := ih c f m fm hl hf
      exact ⟨n.withChildren (replaceChildNamed n.children s c'),
        by simp only [modifyRel, hg, hc']⟩
    | none => rw [hg] at hl; cases hl

/-- Function `modifyRel` preserves the root's name provided the rewrite preserves names. -/
theorem modifyRel_name (q : List String) :
    ∀ n f n', modifyRel n q f = .ok n' →
      (∀ m fm, f m = .ok fm → fm.name = m.name) → n'.name = n.name := by
  induction q with
  | nil =>
    intro n f n' h hf
    exact hf n n' h
  | cons s rest ih =>
    intro n f n' h hf
    simp only [modifyRel] at h
    cases hg : getChild? n.children s with
    | some c =>
      simp only [hg] at h
      cases hm : modifyRel c rest f with
      | ok c' => simp only [hm] at h; cases h; simp
      | error e => simp only [hm] at h; cases h
    | none => simp only [hg] at h; cases h

/-- After a successful `modifyRel`, the modified path resolves to the rewrite
output (when the rewrite preserves names). -/
theorem modifyRel_locate_after (q : List String) :
    ∀ n f n' m fm, modifyRel n q f = .ok n' → locateRel n q = some m →
      f m = .ok fm → (∀ m2 fm2, f m2 = .ok fm2 → fm2.name = m2.name) →
      locateRel n' q = some fm := by
  induction q with
  | nil =>
    intro n f n' m fm h hl hf _
    cases hl
    simp only [modifyRel] at h
    rw [hf] at h
    cases h
    rfl
  | cons s rest ih =>
    intro n f n' m fm h hl hf hname
    simp only [modifyRel] at h
    simp only [locateRel] at hl
    cases hg : getChild? n.children s with
    | some c =>
      simp only [hg] at h hl
      cases hm : modifyRel c rest f with
      | ok c' =>
        simp only [hm] at h; cases h
        have hcn : c'.name = c.name := modifyRel_name rest c f c' hm hname
        have hcs : c.name = s := getChild?_name hg
        simp only [locateRel, children_withChildren]
        rw [getChild?_replace n.children s c c' hg (hcn.trans hcs) s, if_pos rfl]
        exact ih c f c' m fm hm hl hf hname
      | error e => simp only [hm] at h; cases h
    | none => simp only [hg] at h; cases h

/-- Name paths that resolve before a `modifyRel` still resolve to the same names
afterwards, provided the rewrite has that property at its own node. -/
theorem modifyRel_nameAt (q : List String) :
    ∀ n f n', modifyRel n q f = .ok n' →
      (∀ m fm, f m = .ok fm → ∀ q3 x, nameAt m q3 = some x → nameAt fm q3 = some x) →
      ∀ q2 x, nameAt n q2 = some x → nameAt n' q2 = some x := by
  induction q with
  | nil =>
    intro n f n' h hf q2 x hq
    exact hf n n' h q2 x hq
  | cons s rest ih =>
    intro n f n' h hf q2 x hq
    have hname : ∀ m2 fm2, f m2 = .ok fm2 → fm2.name = m2.name := by
      intro m2 fm2 hf2
      have := hf m2 fm2 hf2 [] m2.name (by simp [nameAt, locateRel])
      simpa [nameAt, locateRel] using this
    simp only [modifyRel] at h
    cases hg : getChild? n.children s with
    | some c =>
      simp only [hg] at h
      cases hm : modifyRel c rest f with
      | ok c' =>
        simp only [hm] at h; cases h
        have hcn : c'.name = c.name := modifyRel_name rest c f c' hm hname
        have hcs : c.name = s := getChild?_name hg
        cases q2 with
        | nil => simpa [nameAt, locateRel] using hq
        | cons t qr =>
          simp only [nameAt, locateRel, children_withChildren] at hq ⊢
          rw [getChild?_replace n.children s c c' hg (hcn.trans hcs) t]
          by_cases ht : t = s
          · subst ht
            rw [if_pos rfl]
            rw [hg] at hq
            exact ih c f c' hm hf qr x hq
          · rw [if_neg ht]
            exact hq
      | error e => simp only [hm] at h; cases h
    | none => simp only [hg] at h; cases h

end KnowledgeNode

/-! ### Lemmas about registration and `insert_information` -/

open KnowledgeNode

theorem register_info_root (kb : KnowledgeBase) (info : Information) :
    (register_info kb info).1.root = kb.root := by
  unfold register_info
  cases h : kb.info_uuid_to_info_dict.find? (fun p => infoKey p.2 == infoKey info) <;> rfl

/-- With pairwise-distinct registration keys, `find?` by key returns exactly the
member entry. -/
theorem find?_of_keysNodup (l : List (Nat × Information)) (id : Nat) (info : Information)
    (hnd : keysNodup l) (hmem : (id, info) ∈ l) :
    l.find? (fun p => infoKey p.2 == infoKey info) = some (id, info) := by
  induction l with
  | nil => cases hmem
  | cons a rest ih =>
    have hnd' : keysNodup rest := by
      simpa [keysNodup] using (List.nodup_cons.mp hnd).2
    by_cases ha : infoKey a.2 = infoKey info
    · rw [List.find?_cons_of_pos _ (by simp [ha])]
      rcases List.mem_cons.mp hmem with h | h
      · rw [h]
      · exfalso
        have hkey : infoKey info ∈ rest.map (fun pr => infoKey pr.2) :=
          List.mem_map.mpr ⟨(id, info), h, rfl⟩
        have hnotin : infoKey a.2 ∉ rest.map (fun pr => infoKey pr.2) :=
          (List.nodup_cons.mp hnd).1
        rw [ha] at hnotin
        exact hnotin hkey
    · rw [List.find?_cons_of_neg _ (by simp [ha])]
      rcases List.mem_cons.mp hmem with h | h
      · exfalso; rw [← h] at ha; exact ha rfl
      · exact ih hnd' h

/-- A key-registered information is not re-registered: `register_info` returns the
unchanged knowledge base and the existing id. -/
theorem register_info_stable (kb : KnowledgeBase) (id : Nat) (info : Information)
    (hnd : keysNodup kb.info_uuid_to_info_dict)
    (hmem : (id, info) ∈ kb.info_uuid_to_info_dict) :
    register_info kb info = (kb, id) := by
  unfold register_info
  rw [find?_of_keysNodup kb.info_uuid_to_info_dict id info hnd hmem]

/-- An insertable placement makes `insert_information` succeed. -/
theorem insert_information_ok (kb : KnowledgeBase) (rp p : List String)
    (info : Information) (create : Bool)
    (hres : placementResolves kb.root rp p create) :
    ∃ kb', insert_information kb rp p info create = .ok kb' := by
  obtain ⟨sub, hloc, s, rest, hp, hs, hcr⟩ := hres
  set pr := register_info kb info with hpr
  have hroot : pr.1.root = kb.root := register_info_root kb info
  cases rp with
  | nil => simp [locateFull] at hloc
  | cons r0 rr =>
    simp only [locateFull] at hloc
    by_cases hr0 : r0 = kb.root.name
    · rw [if_pos (by exact beq_iff_eq.mpr hr0)] at hloc
      have hwalk : ∃ fm, sub.walkInsertFull p pr.2 create = .ok fm := by
        subst hp
        have hcond : (s == sub.name) = true := beq_iff_eq.mpr hs
        cases create with
        | true =>
          obtain ⟨fm, hfm⟩ := walkInsert_total_create rest sub pr.2
          exact ⟨fm, by simp only [walkInsertFull, hcond, if_pos, hfm]⟩
        | false =>
          rcases hcr with hcr | hcr
          · cases hcr
          · obtain ⟨m, hm⟩ := Option.isSome_iff_exists.mp hcr
            obtain ⟨fm, hfm⟩ := walkInsert_ok_of_locate rest sub pr.2 m hm
            exact ⟨fm, by simp only [walkInsertFull, hcond, if_pos, hfm]⟩
      obtain ⟨fm, hfm⟩ := hwalk
      obtain ⟨root', hroot'⟩ :=
        modifyRel_ok_of rr kb.root (fun sub => sub.walkInsertFull p pr.2 create) sub fm
          hloc hfm
      refine ⟨{ pr.1 with root := root' }, ?_⟩
      simp only [insert_information]
      rw [show KnowledgeNode.modifyFull pr.1.root (r0 :: rr)
            (fun sub => sub.walkInsertFull p pr.2 create) = .ok root' by
          simp only [modifyFull, hroot]
          rw [if_pos (by exact beq_iff_eq.mpr hr0)]
          exact hroot']
    · rw [if_neg (by simp [hr0])] at hloc
      cases hloc

/-- Function `walkInsertFull` preserves resolvable names (lifts `walkInsert_nameAt`). -/
theorem walkInsertFull_nameAt (m fm : KnowledgeNode) (p : List String) (id : Nat)
    (create : Bool) (h : m.walkInsertFull p id create = .ok fm) :
    ∀ q x, nameAt m q = some x → nameAt fm q = some x := by
  cases p with
  | nil => simp [walkInsertFull] at h
  | cons s rest =>
    simp only [walkInsertFull] at h
    by_cases hs : (s == m.name) = true
    · rw [if_pos hs] at h
      exact walkInsert_nameAt rest m id create fm h
    · rw [if_neg hs] at h; cases h

theorem walkInsertFull_name (m fm : KnowledgeNode) (p : List String) (id : Nat)
    (create : Bool) (h : m.walkInsertFull p id create = .ok fm) : fm.name = m.name := by
  have := walkInsertFull_nameAt m fm p id create h [] m.name
    (by simp [nameAt, locateRel])
  simpa [nameAt, locateRel] using this

/-- Existing nodes survive (with their names) any `insert_information`, and the
root keeps its name. -/
theorem insert_information_nameAt (kb kb' : KnowledgeBase) (rp p : List String)
    (info : Information) (create : Bool)
    (h : insert_information kb rp p info create = .ok kb') :
    (∀ q x, nameAt kb.root q = some x → nameAt kb'.root q = some x) ∧
      kb'.root.name = kb.root.name := by
  set pr := register_info kb info with hpr
  have hroot : pr.1.root = kb.root := register_info_root kb info
  simp only [insert_information] at h
  cases hm : KnowledgeNode.modifyFull pr.1.root rp
      (fun sub : KnowledgeNode => sub.walkInsertFull p pr.2 create) with
  | ok root' =>
    rw [hm] at h
    cases h
    cases rp with
    | nil => simp [modifyFull] at hm
    | cons r0 rr =>
      simp only [modifyFull, hroot] at hm
      by_cases hr0 : (r0 == kb.root.name) = true
      · rw [if_pos hr0] at hm
        have hname : ∀ m2 fm2 : KnowledgeNode,
            m2.walkInsertFull p pr.2 create = .ok fm2 → fm2.name = m2.name := by
          intro m2 fm2 h2
          exact walkInsertFull_name m2 fm2 p pr.2 create h2
        constructor
        · intro q x hq
          exact modifyRel_nameAt rr kb.root _ root' hm
            (fun m2 fm2 h2 => walkInsertFull_nameAt m2 fm2 p pr.2 create h2) q x hq
        · exact modifyRel_name rr kb.root _ root' hm hname
      · rw [if_neg hr0] at hm; cases hm
  | error e => rw [hm] at h; cases h

/-- Insertable placements stay insertable across any `insert_information`. -/
theorem placementResolves_stable (kb kb' : KnowledgeBase) (rp0 p0 rp p : List String)
    (info : Information) (cr cr' : Bool)
    (h : insert_information kb rp0 p0 info cr = .ok kb')
    (hres : placementResolves kb.root rp p cr') :
    placementResolves kb'.root rp p cr' := by
  obtain ⟨hmono, hrname⟩ := insert_information_nameAt kb kb' rp0 p0 info cr h
  obtain ⟨sub, hloc, s, rest, hp, hs, hcr⟩ := hres
  cases rp with
  | nil => simp [locateFull] at hloc
  | cons r0 rr =>
    simp only [locateFull] at hloc
    by_cases hr0 : (r0 == kb.root.name) = true
    · rw [if_pos hr0] at hloc
      have hsub' : nameAt kb'.root rr = some sub.name :=
        hmono rr sub.name (by simp [nameAt, hloc])
      obtain ⟨sub', hsub'loc, hsub'name⟩ : ∃ sub', locateRel kb'.root rr = some sub' ∧
          sub'.name = sub.name := by
        cases hl' : locateRel kb'.root rr with
        | some m => exact ⟨m, rfl, by simpa [nameAt, hl'] using hsub'⟩
        | none => simp [nameAt, hl'] at hsub'
      refine ⟨sub', ?_, s, rest, hp, hs.trans hsub'name.symm, ?_⟩
      · simp only [locateFull]
        rw [if_pos (by rw [hrname]; exact hr0)]
        exact hsub'loc
      · cases cr' with
        | true => exact Or.inl rfl
        | false =>
          rcases hcr with hcr | hcr
          · cases hcr
          · refine Or.inr ?_
            obtain ⟨m, hm⟩ := Option.isSome_iff_exists.mp hcr
            have hroot1 : locateRel kb.root (rr ++ rest) = some m := by
              rw [locateRel_append]
              simp [hloc, hm]
            have := hmono (rr ++ rest) m.name (by simp [nameAt, hroot1])
            rw [nameAt, locateRel_append, hsub'loc] at this
            cases hl2 : locateRel sub' rest with
            | some m2 => simp
            | none => simp [hl2] at this
    · rw [if_neg hr0] at hloc
      cases hloc

/-- The per-step effect of a create-disabled insertion on the subtree at the
insertion root, for a key-registered information: the subtree gains exactly that
id, the id map is untouched. -/
theorem insert_information_cc (kb kb' : KnowledgeBase) (rp p : List String)
    (id : Nat) (info : Information) (sub : KnowledgeNode)
    (hreg : register_info kb info = (kb, id))
    (h : insert_information kb rp p info false = .ok kb')
    (hloc : kb.root.locateFull rp = some sub) :
    ∃ sub', kb'.root.locateFull rp = some sub' ∧ ccF sub' = ccF sub ∪ {id} ∧
      kb'.info_uuid_to_info_dict = kb.info_uuid_to_info_dict ∧
      kb'.next_id = kb.next_id ∧ sub'.name = sub.name := by
  simp only [insert_information, hreg] at h
  cases hm : KnowledgeNode.modifyFull kb.root rp
      (fun sub : KnowledgeNode => sub.walkInsertFull p id false) with
  | ok root' =>
    rw [hm] at h
    cases h
    cases rp with
    | nil => simp [locateFull] at hloc
    | cons r0 rr =>
      simp only [locateFull] at hloc
      simp only [modifyFull] at hm
      by_cases hr0 : (r0 == kb.root.name) = true
      · rw [if_pos hr0] at hloc hm
        obtain ⟨m, fm, hlm, hfm⟩ := modifyRel_spec rr kb.root _ root' hm
        rw [hloc] at hlm
        cases hlm
        have hccfm : ccF fm = ccF sub ∪ {id} := by
          cases p with
          | nil => simp [walkInsertFull] at hfm
          | cons s rest =>
            simp only [walkInsertFull] at hfm
            by_cases hs : (s == sub.name) = true
            · rw [if_pos hs] at hfm
              exact walkInsert_cc rest sub id false fm hfm
            · rw [if_neg hs] at hfm; cases hfm
        have hfmname : fm.name = sub.name := walkInsertFull_name sub fm p id false hfm
        have hafter : locateRel root' rr = some fm :=
          modifyRel_locate_after rr kb.root _ root' sub fm hm hloc hfm
            (fun m2 fm2 h2 => walkInsertFull_name m2 fm2 p id false h2)
        have hrname : root'.name = kb.root.name :=
          modifyRel_name rr kb.root _ root' hm
            (fun m2 fm2 h2 => walkInsertFull_name m2 fm2 p id false h2)
        refine ⟨fm, ?_, hccfm, rfl, rfl, hfmname⟩
        simp only [locateFull]
        rw [if_pos (by rw [hrname]; exact hr0)]
        exact hafter
      · rw [if_neg hr0] at hloc; cases hloc
  | error e => rw [hm] at h; cases h

/-! ### Lemmas about `dedupFirst`, `assocFind` and `forwardFold` -/

theorem dedupFirst_aux_mem_acc (l : List (String × String)) :
    ∀ acc x, x ∈ acc →
      x ∈ l.foldl (fun acc y => if y ∈ acc then acc else acc ++ [y]) acc := by
  induction l with
  | nil => intro acc x hx; exact hx
  | cons a rest ih =>
    intro acc x hx
    simp only [List.foldl_cons]
    by_cases ha : a ∈ acc
    · rw [if_pos ha]; exact ih acc x hx
    · rw [if_neg ha]; exact ih (acc ++ [a]) x (List.mem_append_left _ hx)

theorem dedupFirst_aux_mem (l : List (String × String)) :
    ∀ acc x, x ∈ l →
      x ∈ l.foldl (fun acc y => if y ∈ acc then acc else acc ++ [y]) acc := by
  induction l with
  | nil => intro acc x hx; cases hx
  | cons a rest ih =>
    intro acc x hx
    simp only [List.foldl_cons]
    rcases List.mem_cons.mp hx with rfl | hx
    · by_cases ha : x ∈ acc
      · rw [if_pos ha]; exact dedupFirst_aux_mem_acc rest acc x ha
      · rw [if_neg ha]
        exact dedupFirst_aux_mem_acc rest (acc ++ [x]) x
          (List.mem_append_right _ (List.mem_singleton.mpr rfl))
    · by_cases ha : a ∈ acc
      · rw [if_pos ha]; exact ih acc x hx
      · rw [if_neg ha]; exact ih (acc ++ [a]) x hx

/-- Every intent of the batch appears among the dedup keys. -/
theorem mem_dedupFirst (l : List (String × String)) (x : String × String) (hx : x ∈ l) :
    x ∈ dedupFirst l :=
  dedupFirst_aux_mem l [] x hx

theorem dedupFirst_aux_nodup (l : List (String × String)) :
    ∀ acc, acc.Nodup →
      (l.foldl (fun acc y => if y ∈ acc then acc else acc ++ [y]) acc).Nodup := by
  induction l with
  | nil => intro acc h; exact h
  | cons a rest ih =>
    intro acc h
    simp only [List.foldl_cons]
    by_cases ha : a ∈ acc
    · rw [if_pos ha]; exact ih acc h
    · rw [if_neg ha]
      refine ih (acc ++ [a]) ?_
      simpa [List.nodup_append] using ⟨h, ha⟩

/-- The dedup keys are pairwise distinct: one placement decision per distinct
intent. -/
theorem dedupFirst_nodup (l : List (String × String)) : (dedupFirst l).Nodup :=
  dedupFirst_aux_nodup l [] List.nodup_nil

/-- Looking an intent up in the placement list built over the intent keys yields
the decision for that intent. -/
theorem assocFind_map (g : String × String → Option (List String)) :
    ∀ (intents : List (String × String)) (it : String × String), it ∈ intents →
      assocFind (intents.map (fun j => (j, g j))) it = g it := by
  intro intents
  induction intents with
  | nil => intro it hit; cases hit
  | cons a rest ih =>
    intro it hit
    by_cases ha : a = it
    · subst ha
      simp only [assocFind, List.map_cons]
      rw [List.find?_cons_of_pos _ (by simp)]
    · rcases List.mem_cons.mp hit with h | h
      · exact absurd h.symm ha
      · simp only [assocFind, List.map_cons] at ih ⊢
        rw [List.find?_cons_of_neg _ (by simp [ha])]
        exact ih it h

namespace InsertInformationModule

/-- The pairs returned by the mutation phase: one per input information, in input
order, carrying the decided placement of its intent. -/
theorem forwardFold_pairs (placements : List ((String × String) × Option (List String)))
    (rp : List String) (cr : Bool) :
    ∀ infos kb kbf prs, forwardFold placements kb rp cr infos = .ok (kbf, prs) →
      prs = infos.map (fun i => (i, assocFind placements (intentOf i))) := by
  intro infos
  induction infos with
  | nil =>
    intro kb kbf prs h
    simp only [forwardFold] at h
    cases h
    rfl
  | cons info rest ih =>
    intro kb kbf prs h
    simp only [forwardFold] at h
    cases hi : insert_info_to_kb kb rp (assocFind placements (intentOf info)) info cr with
    | ok kb' =>
      simp only [hi] at h
      cases hrec : forwardFold placements kb' rp cr rest with
      | ok pr =>
        obtain ⟨kbf2, prs2⟩ := pr
        simp only [hrec] at h
        cases h
        rw [List.map_cons, ← ih kb' kbf prs2 hrec]
      | error e => simp only [hrec] at h; cases h
    | error e => simp only [hi] at h; cases h

/-- Informations whose intent got no placement are skipped: the final knowledge
base of a batch equals that of the batch restricted to the placed informations. -/
theorem forwardFold_filter (placements : List ((String × String) × Option (List String)))
    (rp : List String) (cr : Bool) :
    ∀ infos kb kbf prs, forwardFold placements kb rp cr infos = .ok (kbf, prs) →
      forwardFold placements kb rp cr
          (infos.filter (fun i => (assocFind placements (intentOf i)).isSome)) =
        .ok (kbf, prs.filter (fun pr => pr.2.isSome)) := by
  intro infos
  induction infos with
  | nil =>
    intro kb kbf prs h
    simp only [forwardFold] at h
    cases h
    rfl
  | cons info rest ih =>
    intro kb kbf prs h
    simp only [forwardFold] at h
    cases hpl : assocFind placements (intentOf info) with
    | none =>
      simp only [hpl, insert_info_to_kb] at h
      cases hrec : forwardFold placements kb rp cr rest with
      | ok pr =>
        obtain ⟨kbf2, prs2⟩ := pr
        simp only [hrec] at h
        cases h
        simpa [List.filter_cons, hpl] using ih kb kbf prs2 hrec
      | error e => simp only [hrec] at h; cases h
    | some p =>
      simp only [hpl] at h
      cases hi : insert_info_to_kb kb rp (some p) info cr with
      | ok kb' =>
        simp only [hi] at h
        cases hrec : forwardFold placements kb' rp cr rest with
        | ok pr =>
          obtain ⟨kbf2, prs2⟩ := pr
          simp only [hrec] at h
          cases h
          have ihres := ih kb' kbf prs2 hrec
          simp only [List.filter_cons, hpl, Option.isSome_some, if_pos,
            forwardFold, hi, ihres]
        | error e => simp only [hrec] at h; cases h
      | error e => simp only [hi] at h; cases h

/-- The mutation phase succeeds whenever every decided placement is insertable. -/
theorem forwardFold_ok (placements : List ((String × String) × Option (List String)))
    (rp : List String) (cr : Bool) :
    ∀ infos kb,
      (∀ info ∈ infos, ∀ p, assocFind placements (intentOf info) = some p →
        placementResolves kb.root rp p cr) →
      ∃ kbf prs, forwardFold placements kb rp cr infos = .ok (kbf, prs) := by
  intro infos
  induction infos with
  | nil => intro kb _; exact ⟨kb, [], rfl⟩
  | cons info rest ih =>
    intro kb hres
    cases hpl : assocFind placements (intentOf info) with
    | none =>
      obtain ⟨kbf, prs, hfold⟩ := ih kb (fun i hi p hp => hres i (List.mem_cons_of_mem _ hi) p hp)
      exact ⟨kbf, (info, none) :: prs, by
        simp only [forwardFold, hpl, insert_info_to_kb, hfold]⟩
    | some p =>
      have hr := hres info (List.mem_cons_self _ _) p hpl
      obtain ⟨kb', hkb'⟩ := insert_information_ok kb rp p info cr hr
      have hres' : ∀ i ∈ rest, ∀ p2, assocFind placements (intentOf i) = some p2 →
          placementResolves kb'.root rp p2 cr := by
        intro i hi p2 hp2
        exact placementResolves_stable kb kb' rp p rp p2 info cr cr hkb'
          (hres i (List.mem_cons_of_mem _ hi) p2 hp2)
      obtain ⟨kbf, prs, hfold⟩ := ih kb' hres'
      exact ⟨kbf, (info, some p) :: prs, by
        simp only [forwardFold, hpl, insert_info_to_kb, hkb', hfold]⟩

/-- The content accumulation of a create-disabled mutation phase over
key-registered informations: the subtree at the insertion root gains exactly the
ids of the batch, and the id map is untouched. -/
theorem forwardFold_cc (placements : List ((String × String) × Option (List String)))
    (rp : List String) :
    ∀ (ids : List Nat) (infos : List Information) (kb : KnowledgeBase) (sub : KnowledgeNode),
      keysNodup kb.info_uuid_to_info_dict →
      List.Forall₂ (fun id info => (id, info) ∈ kb.info_uuid_to_info_dict) ids infos →
      (∀ info ∈ infos, ∃ p, assocFind placements (intentOf info) = some p ∧
        placementResolves kb.root rp p false) →
      kb.root.locateFull rp = some sub →
      ∃ kbf prs sub', forwardFold placements kb rp false infos = .ok (kbf, prs) ∧
        kbf.info_uuid_to_info_dict = kb.info_uuid_to_info_dict ∧
        kbf.root.locateFull rp = some sub' ∧ ccF sub' = ccF sub ∪ ids.toFinset := by
  intro ids
  induction ids with
  | nil =>
    intro infos kb sub _ hf _ hloc
    cases hf
    exact ⟨kb, [], sub, rfl, rfl, hloc, by simp⟩
  | cons id idrest ih =>
    intro infos kb sub hkeys hf hres hloc
    cases hf with
    | cons hmem hftail =>
      rename_i info irest
      obtain ⟨p, hpl, hresolve⟩ := hres info (List.mem_cons_self _ _)
      have hreg : register_info kb info = (kb, id) :=
        register_info_stable kb id info hkeys hmem
      obtain ⟨kb', hkb'⟩ := insert_information_ok kb rp p info false hresolve
      obtain ⟨sub', hloc', hcc', hmap', hnid', hname'⟩ :=
        insert_information_cc kb kb' rp p id info sub hreg hkb' hloc
      have hkeys' : keysNodup kb'.info_uuid_to_info_dict := by rwa [hmap']
      have hftail' : List.Forall₂
          (fun id info => (id, info) ∈ kb'.info_uuid_to_info_dict) idrest irest := by
        rw [hmap']; exact hftail
      have hres' : ∀ i ∈ irest, ∃ p2, assocFind placements (intentOf i) = some p2 ∧
          placementResolves kb'.root rp p2 false := by
        intro i hi
        obtain ⟨p2, hp2, hr2⟩ := hres i (List.mem_cons_of_mem _ hi)
        exact ⟨p2, hp2, placementResolves_stable kb kb' rp p rp p2 info false false
          hkb' hr2⟩
      obtain ⟨kbf, prs, subf, hfold, hmapf, hlocf, hccf⟩ :=
        ih irest kb' sub' hkeys' hftail' hres' hloc'
      refine ⟨kbf, (info, some p) :: prs, subf, ?_, by rw [hmapf, hmap'], hlocf, ?_⟩
      · simp only [forwardFold, hpl, insert_info_to_kb, hkb', hfold]
      · rw [hccf, hcc']
        ext a
        simp only [Finset.mem_union, Finset.mem_singleton, List.mem_toFinset,
          List.mem_cons]
        tauto

end InsertInformationModule

/-! ### Lemmas about node expansion -/

/-- The observables of the node at a path that expansion bookkeeping relies on:
name, own content, subtree content set. -/
def nodeKey (n : KnowledgeNode) : String × List Nat × Finset Nat :=
  (n.name, n.content, ccF n)

theorem gatherInfos_forall (m : List (Nat × Information)) :
    ∀ ids infos, ExpandNodeModule.gatherInfos m ids = .ok infos →
      List.Forall₂ (fun id info => (id, info) ∈ m) ids infos := by
  intro ids
  induction ids with
  | nil =>
    intro infos h
    simp only [ExpandNodeModule.gatherInfos] at h
    cases h
    exact List.Forall₂.nil
  | cons id rest ih =>
    intro infos h
    simp only [ExpandNodeModule.gatherInfos] at h
    cases hl : lookupInfo m id with
    | ok info =>
      simp only [hl] at h
      cases hrec : ExpandNodeModule.gatherInfos m rest with
      | ok irest =>
        simp only [hrec] at h
        cases h
        refine List.Forall₂.cons ?_ (ih irest hrec)
        simp only [lookupInfo] at hl
        cases hf : m.find? (fun p => p.1 == id) with
        | some pr =>
          rw [hf] at hl
          cases hl
          have hid : pr.1 = id := by simpa using List.find?_some hf
          have hmem : pr ∈ m := List.mem_of_find?_eq_some hf
          rw [show (id, pr.2) = pr by rw [← hid]]
          exact hmem
        | none => rw [hf] at hl; cases hl
      | error e => simp only [hrec] at h; cases h
    | error e => simp only [hl] at h; cases h

/-- Function `insert_node` appends an empty child: the id map and the observable state of
the parent node (up to its content set) are unchanged, and so is the name of every
resolvable node. -/
theorem insert_node_spec (kb kb' : KnowledgeBase) (pp : List String) (nm : String)
    (h : insert_node kb pp nm = .ok kb') :
    kb'.info_uuid_to_info_dict = kb.info_uuid_to_info_dict ∧
      kb'.next_id = kb.next_id ∧
      (kb'.root.locateFull pp).map nodeKey = (kb.root.locateFull pp).map nodeKey ∧
      (∀ q x, nameAt kb.root q = some x → nameAt kb'.root q = some x) ∧
      kb'.root.name = kb.root.name := by
  simp only [insert_node] at h
  set f : KnowledgeNode → Except String KnowledgeNode := fun parent =>
    if (KnowledgeNode.getChild? parent.children nm).isSome then
      .error ("DuplicateNameError: " ++ nm)
    else .ok (parent.withChildren (parent.children ++ [KnowledgeNode.fresh nm])) with hf
  have hfspec : ∀ m fm, f m = .ok fm →
      fm = m.withChildren (m.children ++ [KnowledgeNode.fresh nm]) := by
    intro m fm hfm
    rw [hf] at hfm
    by_cases hdup : (KnowledgeNode.getChild? m.children nm).isSome
    · simp only [if_pos hdup] at hfm; cases hfm
    · simp only [if_neg hdup] at hfm; cases hfm; rfl
  have hfname : ∀ m fm, f m = .ok fm → fm.name = m.name := by
    intro m fm hfm
    rw [hfspec m fm hfm]
    simp
  have hfnameAt : ∀ m fm, f m = .ok fm →
      ∀ q x, nameAt m q = some x → nameAt fm q = some x := by
    intro m fm hfm q x hq
    rw [hfspec m fm hfm]
    cases q with
    | nil => simpa [nameAt, locateRel] using hq
    | cons t qr =>
      simp only [nameAt, locateRel, children_withChildren] at hq ⊢
      cases hgt : KnowledgeNode.getChild? m.children t with
      | some c0 =>
        rw [hgt] at hq
        rw [show KnowledgeNode.getChild? (m.children ++ [KnowledgeNode.fresh nm]) t
              = some c0 by
            rw [KnowledgeNode.getChild?, List.find?_append]
            simp only [KnowledgeNode.getChild?] at hgt
            simp [hgt]]
        exact hq
      | none => rw [hgt] at hq; cases hq
  cases hm : kb.root.modifyFull pp f with
  | ok root' =>
    rw [hm] at h
    cases h
    refine ⟨rfl, rfl, ?_, ?_, ?_⟩
    · cases pp with
      | nil => simp [modifyFull] at hm
      | cons r0 rr =>
        simp only [modifyFull] at hm
        by_cases hr0 : (r0 == kb.root.name) = true
        · rw [if_pos hr0] at hm
          obtain ⟨m, fm, hlm, hfm⟩ := modifyRel_spec rr kb.root f root' hm
          have hafter : locateRel root' rr = some fm :=
            modifyRel_locate_after rr kb.root f root' m fm hm hlm hfm hfname
          have hrname : root'.name = kb.root.name :=
            modifyRel_name rr kb.root f root' hm hfname
          have hkey : nodeKey fm = nodeKey m := by
            rw [hfspec m fm hfm]
            simp only [nodeKey, name_withChildren, content_withChildren,
              children_withChildren, ccF_eq, KnowledgeNode.collectChildren_append]
            rw [show KnowledgeNode.collectChildren [KnowledgeNode.fresh nm] = []
              from rfl, List.append_nil]
          simp only [locateFull]
          rw [if_pos (by rw [hrname]; exact hr0), if_pos hr0, hafter, hlm]
          simp [hkey]
        · rw [if_neg hr0] at hm; cases hm
    · intro q x hq
      cases pp with
      | nil => simp [modifyFull] at hm
      | cons r0 rr =>
        simp only [modifyFull] at hm
        by_cases hr0 : (r0 == kb.root.name) = true
        · rw [if_pos hr0] at hm
          exact modifyRel_nameAt rr kb.root f root' hm hfnameAt q x hq
        · rw [if_neg hr0] at hm; cases hm
    · cases pp with
      | nil => simp [modifyFull] at hm
      | cons r0 rr =>
        simp only [modifyFull] at hm
        by_cases hr0 : (r0 == kb.root.name) = true
        · rw [if_pos hr0] at hm
          exact modifyRel_name rr kb.root f root' hm hfname
        · rw [if_neg hr0] at hm; cases hm
  | error e => rw [hm] at h; cases h

theorem insertNewNodes_spec (nodePath : List String) :
    ∀ (names : List String) (kb kb1 : KnowledgeBase),
      ExpandNodeModule.insertNewNodes nodePath kb names = .ok kb1 →
      kb1.info_uuid_to_info_dict = kb.info_uuid_to_info_dict ∧
        kb1.next_id = kb.next_id ∧
        (kb1.root.locateFull nodePath).map nodeKey =
          (kb.root.locateFull nodePath).map nodeKey := by
  intro names
  induction names with
  | nil =>
    intro kb kb1 h
    simp only [ExpandNodeModule.insertNewNodes] at h
    cases h
    exact ⟨rfl, rfl, rfl⟩
  | cons nm rest ih =>
    intro kb kb1 h
    simp only [ExpandNodeModule.insertNewNodes] at h
    cases hstep : insert_node kb nodePath (ExpandNodeModule.removeCitationBrackets nm) with
    | ok kb' =>
      simp only [hstep] at h
      obtain ⟨hmap, hnid, hkey, _, _⟩ := insert_node_spec kb kb' nodePath _ hstep
      obtain ⟨hmap', hnid', hkey'⟩ := ih kb' kb1 h
      exact ⟨hmap'.trans hmap, hnid'.trans hnid, hkey'.trans hkey⟩
    | error e => simp only [hstep] at h; cases h

/-- The observable effect of `expandStage1`: the node existed already, the id map
is untouched, the returned informations are exactly the node's cited records, and
the subtree at the node now carries its former content minus the node's own ids. -/
theorem expandStage1_spec (kb kb2 : KnowledgeBase) (nodePath : List String)
    (names : List String) (infos : List Information)
    (h : ExpandNodeModule.expandStage1 kb nodePath names = .ok (kb2, infos)) :
    ∃ node node2,
      kb.root.locateFull nodePath = some node ∧
      kb2.root.locateFull nodePath = some node2 ∧
      kb2.info_uuid_to_info_dict = kb.info_uuid_to_info_dict ∧
      List.Forall₂ (fun id info => (id, info) ∈ kb.info_uuid_to_info_dict)
        node.content infos ∧
      ccF node2 ∪ node.content.toFinset = ccF node := by
  simp only [ExpandNodeModule.expandStage1] at h
  cases hins : ExpandNodeModule.insertNewNodes nodePath kb names with
  | ok kb1 =>
    simp only [hins] at h
    obtain ⟨hmap1, hnid1, hkey1⟩ := insertNewNodes_spec nodePath names kb kb1 hins
    cases hloc1 : kb1.root.locateFull nodePath with
    | some node1 =>
      simp only [hloc1] at h
      rw [hloc1] at hkey1
      cases hloc0 : kb.root.locateFull nodePath with
      | some node =>
        rw [hloc0] at hkey1
        simp only [Option.map_some', Option.some.injEq, nodeKey, Prod.mk.injEq] at hkey1
        obtain ⟨hname1, hcont1, hcc1⟩ := hkey1
        cases hg : ExpandNodeModule.gatherInfos kb1.info_uuid_to_info_dict node1.content with
        | ok infos1 =>
          simp only [hg] at h
          cases hclear : kb1.root.modifyFull nodePath
              (fun m : KnowledgeNode => .ok (m.withContent [])) with
          | ok root2 =>
            simp only [hclear] at h
            cases h
            have hfname : ∀ m fm : KnowledgeNode,
                (fun m : KnowledgeNode =>
                  (.ok (m.withContent []) : Except String KnowledgeNode)) m = .ok fm →
                fm.name = m.name := by
              intro m fm hfm
              cases hfm
              simp
            cases nodePath with
            | nil => simp [modifyFull] at hclear
            | cons r0 rr =>
              simp only [modifyFull] at hclear
              by_cases hr0 : (r0 == kb1.root.name) = true
              · rw [if_pos hr0] at hclear
                simp only [locateFull] at hloc1
                rw [if_pos hr0] at hloc1
                obtain ⟨m, fm, hlm, hfm⟩ := modifyRel_spec rr kb1.root _ root2 hclear
                rw [hloc1] at hlm
                cases hlm
                cases hfm
                have hafter : locateRel root2 rr = some (node1.withContent []) :=
                  modifyRel_locate_after rr kb1.root _ root2 node1 _ hclear hloc1 rfl
                    hfname
                have hrname : root2.name = kb1.root.name :=
                  modifyRel_name rr kb1.root _ root2 hclear hfname
                refine ⟨node, node1.withContent [], rfl, ?_, hmap1, ?_, ?_⟩
                · simp only [locateFull]
                  rw [if_pos (by rw [hrname]; exact hr0)]
                  exact hafter
                · rw [← hcont1, ← hmap1]
                  exact gatherInfos_forall kb1.info_uuid_to_info_dict node1.content
                    infos hg
                · have : ccF (node1.withContent []) =
                      (KnowledgeNode.collectChildren node1.children).toFinset := by
                    cases node1
                    simp [ccF, KnowledgeNode.withContent]
                  rw [this, ← hcc1, ← hcont1, ccF_eq node1]
                  ac_rfl
              · rw [if_neg hr0] at hclear; cases hclear
          | error e => simp only [hclear] at h; cases h
        | error e => simp only [hg] at h; cases h
      | none => rw [hloc0] at hkey1; cases hkey1
    | none => simp only [hloc1] at h; cases h
  | error e => simp only [hins] at h; cases h

theorem map_fst_mk_eq (g : α → β) : ∀ l : List α,
    (l.map (fun i => (i, g i))).map Prod.fst = l := by
  intro l
  induction l with
  | nil => rfl
  | cons a t ih => simp only [List.map_cons, ih]

theorem exceptToOption_some (x : Except String α) (a : α)
    (h : exceptToOption x = some a) : x = .ok a := by
  cases x with
  | ok b => cases h; rfl
  | error e => cases h

theorem exceptIsOk_false (x : Except String α) (h : exceptIsOk x = false) :
    exceptToOption x = none := by
  cases x with
  | ok b => cases h
  | error e => rfl

/-! ## Concrete instances used by witnesses and counterexamples -/

/-- Two informations with distinct intents. -/
def infoQ1 : Information := ⟨"u1", [("question", "q1"), ("query", "s1")]⟩

def infoQ2 : Information := ⟨"u2", [("question", "q2"), ("query", "s2")]⟩

/-- Two informations sharing one intent but with different urls. -/
def infoUA : Information := ⟨"uA", [("question", "q"), ("query", "s")]⟩

def infoUB : Information := ⟨"uB", [("question", "q"), ("query", "s")]⟩

/-- A root-only knowledge base. -/
def kbEmptyRoot : KnowledgeBase := ⟨.node "r" [] none false [], [], 0⟩

/-- A root holding one cited information. -/
def infoW : Information := ⟨"uW", [("question", "qW"), ("query", "sW")]⟩

def kbOneInfo : KnowledgeBase := ⟨.node "r" [0] none false [], [(0, infoW)], 1⟩

/-- A decider that always fails (every placement decision raises). -/
def decideFail : DecideFn := fun _ _ _ => .error "collaborator failure"

/-- A decider that always files at the insertion-subtree root. -/
def decideAtRoot : DecideFn := fun _ _ _ => .ok ["r"]

/-- A decider that fails on `infoQ1`'s intent and otherwise files at the root. -/
def decideMixed : DecideFn := fun _ _ it =>
  if it = ("q1", "s1") then .error "collaborator failure" else .ok ["r"]

/-- The create-branch probe: the first intent's placement creates node `N`; the
second intent files under `N` exactly when `N` is already visible in the tree it is
shown, and at the root otherwise. -/
def decideCreateProbe : DecideFn := fun kb _ it =>
  if it = ("q1", "s1") then .ok ["r", "N"]
  else if (kb.root.locateFull ["r", "N"]).isSome then .ok ["r", "N"] else .ok ["r"]

/-! ## Claim theorems -/

/-- Claim C9: in both the create-enabled and create-disabled branches,
`InsertInformationModule.forward` returns exactly one `(information,
placement_prediction)` pair per element of the input information list, in input
order. -/
theorem C9_forward_one_pair_per_input (decideE : DecideFn) (kb : KnowledgeBase)
    (information : List Information) (allow_create : Bool) (rp : List String)
    (kbf : KnowledgeBase) (prs : List (Information × Option (List String)))
    (h : InsertInformationModule.forward decideE kb information allow_create rp =
      .ok (kbf, prs)) :
    prs.map Prod.fst = information := by
  simp only [InsertInformationModule.forward] at h
  rw [InsertInformationModule.forwardFold_pairs _ rp allow_create information kb kbf prs h]
  exact map_fst_mk_eq _ information

/-- Witness for C9 at a concrete one-element batch. -/
theorem C9_forward_one_pair_per_input_witness :
    ([(infoQ1, (none : Option (List String)))].map Prod.fst = [infoQ1]) :=
  C9_forward_one_pair_per_input decideFail kbEmptyRoot [infoQ1] false ["r"]
    kbEmptyRoot [(infoQ1, none)] rfl

/-- Claim C8: `forward` computes one placement decision per distinct
`(question, query)` pair (the dedup keys are pairwise distinct and each decision is
keyed by one of them), every returned pair carries the placement looked up under
its information's intent, and two informations sharing an intent receive the same
placement regardless of their urls. -/
theorem C8_one_decision_per_intent (decideE : DecideFn) (kb : KnowledgeBase)
    (information : List Information) (allow_create : Bool) (rp : List String)
    (kbf : KnowledgeBase) (prs : List (Information × Option (List String)))
    (h : InsertInformationModule.forward decideE kb information allow_create rp =
      .ok (kbf, prs)) :
    (dedupFirst (information.map intentOf)).Nodup ∧
    ((dedupFirst (information.map intentOf)).map
        (fun it => (it, exceptToOption (decideE kb rp it)))).map Prod.fst =
      dedupFirst (information.map intentOf) ∧
    prs = information.map (fun i =>
      (i, assocFind ((dedupFirst (information.map intentOf)).map
        (fun it => (it, exceptToOption (decideE kb rp it)))) (intentOf i))) ∧
    (∀ pr1 ∈ prs, ∀ pr2 ∈ prs, intentOf pr1.1 = intentOf pr2.1 → pr1.2 = pr2.2) := by
  simp only [InsertInformationModule.forward] at h
  have hpairs := InsertInformationModule.forwardFold_pairs _ rp allow_create
    information kb kbf prs h
  refine ⟨dedupFirst_nodup _, map_fst_mk_eq _ _, hpairs, ?_⟩
  intro pr1 h1 pr2 h2 hint
  rw [hpairs] at h1 h2
  obtain ⟨i1, _, rfl⟩ := List.mem_map.mp h1
  obtain ⟨i2, _, rfl⟩ := List.mem_map.mp h2
  simp only at hint ⊢
  rw [hint]

/-- Witness for C8: two informations with the same question and query but distinct
urls receive one shared placement decision. -/
theorem C8_one_decision_per_intent_witness :
    (dedupFirst ([infoUA, infoUB].map intentOf)).Nodup :=
  (C8_one_decision_per_intent decideAtRoot kbEmptyRoot [infoUA, infoUB] false ["r"]
    ⟨.node "r" [0, 1] none true [], [(0, infoUA), (1, infoUB)], 2⟩
    [(infoUA, some ["r"]), (infoUB, some ["r"])] rfl).1

/-- Claim C5: when the expansion-proposal collaborator proposes one or zero
sub-node names, `_expand_node` leaves the knowledge base (hence the node's content
and children) completely unchanged and re-inserts nothing. -/
theorem C5_expand_node_short_proposal_noop (decideE : DecideFn) (kb : KnowledgeBase)
    (nodePath : List String) (subsection_names : List String)
    (hlen : subsection_names.length ≤ 1) :
    ExpandNodeModule._expand_node decideE kb nodePath subsection_names = .ok kb := by
  simp [ExpandNodeModule._expand_node, hlen]

/-- Witness for C5: a node with two content ids and a single proposed name is left
untouched. -/
theorem C5_expand_node_short_proposal_noop_witness :
    ExpandNodeModule._expand_node decideFail kbOneInfo ["r"] ["单节"] = .ok kbOneInfo :=
  C5_expand_node_short_proposal_noop decideFail kbOneInfo ["r"] ["单节"] (by decide)

/-- Claim C3: a placement-decision failure for one intent does not abort the
batch.  Provided the successfully decided placements are insertable, `forward`
returns normally, yields a pair for every input in order, pairs the informations of
a failed intent with `none`, and the final knowledge base is that of the batch
restricted to the placed informations (the failed ones are filed nowhere). -/
theorem C3_decision_failure_degrades_to_none (decideE : DecideFn) (kb : KnowledgeBase)
    (information : List Information) (allow_create : Bool) (rp : List String)
    (hres : ∀ it p, exceptToOption (decideE kb rp it) = some p →
      placementResolves kb.root rp p allow_create) :
    exceptIsOk (InsertInformationModule.forward decideE kb information allow_create rp)
        = true ∧
    ∀ kbf prs, InsertInformationModule.forward decideE kb information allow_create rp =
        .ok (kbf, prs) →
      prs.map Prod.fst = information ∧
      (∀ info ∈ information, exceptIsOk (decideE kb rp (intentOf info)) = false →
        (info, (none : Option (List String))) ∈ prs) ∧
      InsertInformationModule.forwardFold
          ((dedupFirst (information.map intentOf)).map
            (fun it => (it, exceptToOption (decideE kb rp it)))) kb rp allow_create
          (information.filter (fun i =>
            (assocFind ((dedupFirst (information.map intentOf)).map
              (fun it => (it, exceptToOption (decideE kb rp it)))) (intentOf i)).isSome)) =
        .ok (kbf, prs.filter (fun pr => pr.2.isSome)) := by
  have hres' : ∀ info ∈ information, ∀ p,
      assocFind ((dedupFirst (information.map intentOf)).map
        (fun it => (it, exceptToOption (decideE kb rp it)))) (intentOf info) = some p →
      placementResolves kb.root rp p allow_create := by
    intro info hinfo p hp
    rw [assocFind_map _ _ _ (mem_dedupFirst _ _
      (List.mem_map.mpr ⟨info, hinfo, rfl⟩))] at hp
    exact hres _ p hp
  obtain ⟨kbf0, prs0, hfold⟩ :=
    InsertInformationModule.forwardFold_ok _ rp allow_create information kb hres'
  constructor
  · simp only [InsertInformationModule.forward]
    rw [hfold]
    rfl
  · intro kbf prs h
    simp only [InsertInformationModule.forward] at h
    have hpairs := InsertInformationModule.forwardFold_pairs _ rp allow_create
      information kb kbf prs h
    refine ⟨by rw [hpairs]; exact map_fst_mk_eq _ information, ?_, ?_⟩
    · intro info hinfo herr
      rw [hpairs]
      refine List.mem_map.mpr ⟨info, hinfo, ?_⟩
      rw [assocFind_map _ _ _ (mem_dedupFirst _ _
        (List.mem_map.mpr ⟨info, hinfo, rfl⟩))]
      rw [exceptIsOk_false _ herr]
    · exact InsertInformationModule.forwardFold_filter _ rp allow_create
        information kb kbf prs h

/-- Witness for C3: a two-intent batch in which the first intent's decision raises
still returns normally. -/
theorem C3_decision_failure_degrades_to_none_witness :
    exceptIsOk (InsertInformationModule.forward decideMixed kbEmptyRoot
        [infoQ1, infoQ2] false ["r"]) = true :=
  (C3_decision_failure_degrades_to_none decideMixed kbEmptyRoot [infoQ1, infoQ2]
    false ["r"]
    (by
      intro it p hp
      by_cases hit : it = ("q1", "s1")
      · rw [decideMixed, if_pos hit] at hp
        cases hp
      · rw [decideMixed, if_neg hit] at hp
        cases hp
        exact ⟨kbEmptyRoot.root, rfl, "r", [], rfl, rfl, Or.inr rfl⟩)).1

/-- Claim C1 (amended): node expansion is content-preserving provided every
placement decision made during the re-insertion succeeds with a path that resolves
inside the expanded subtree: under collaborator proposals of two or more names, the
set of information ids collected over the node's subtree is the same before and
after `_expand_node`.  (Without that proviso an id is lost, see the
counterexample.) -/
theorem C1_expand_node_content_preserving (decideE : DecideFn) (kb kb2 : KnowledgeBase)
    (nodePath : List String) (subsection_names : List String) (infos : List Information)
    (hlen : 2 ≤ subsection_names.length)
    (hstage : ExpandNodeModule.expandStage1 kb nodePath subsection_names =
      .ok (kb2, infos))
    (hkeys : keysNodup kb.info_uuid_to_info_dict)
    (hdec : ∀ it, ∃ p, decideE kb2 nodePath it = .ok p ∧
      placementResolves kb2.root nodePath p false) :
    exceptIsOk (ExpandNodeModule._expand_node decideE kb nodePath subsection_names)
        = true ∧
    ∀ kb3, ExpandNodeModule._expand_node decideE kb nodePath subsection_names =
        .ok kb3 →
      ccAtFull kb3.root nodePath = ccAtFull kb.root nodePath := by
  obtain ⟨node, node2, hloc0, hloc2, hmap2, hforall, hccsplit⟩ :=
    expandStage1_spec kb kb2 nodePath subsection_names infos hstage
  have hkeys2 : keysNodup kb2.info_uuid_to_info_dict := by rwa [hmap2]
  have hforall2 : List.Forall₂
      (fun id info => (id, info) ∈ kb2.info_uuid_to_info_dict) node.content infos := by
    rw [hmap2]; exact hforall
  have hres : ∀ info ∈ infos, ∃ p,
      assocFind ((dedupFirst (infos.map intentOf)).map
        (fun it => (it, exceptToOption (decideE kb2 nodePath it)))) (intentOf info) =
        some p ∧
      placementResolves kb2.root nodePath p false := by
    intro info hinfo
    obtain ⟨p, hp, hr⟩ := hdec (intentOf info)
    refine ⟨p, ?_, hr⟩
    rw [assocFind_map _ _ _ (mem_dedupFirst _ _ (List.mem_map.mpr ⟨info, hinfo, rfl⟩)),
      hp]
    rfl
  obtain ⟨kbf, prs, sub', hfold, hmapf, hlocf, hccf⟩ :=
    InsertInformationModule.forwardFold_cc _ nodePath node.content infos kb2 node2
      hkeys2 hforall2 hres hloc2
  have hnotle : ¬subsection_names.length ≤ 1 := by omega
  have hexp : ExpandNodeModule._expand_node decideE kb nodePath subsection_names =
      .ok kbf := by
    simp only [ExpandNodeModule._expand_node, if_neg hnotle, hstage,
      InsertInformationModule.forward, hfold]
  refine ⟨by rw [hexp]; rfl, ?_⟩
  intro kb3 h3
  rw [hexp] at h3
  cases h3
  simp only [ccAtFull, hlocf, hloc0]
  rw [hccf, hccsplit]

/-- Witness for C1 at a one-id node expanded into two sub-nodes, with a decider
that files everything back at the subtree root. -/
theorem C1_expand_node_content_preserving_witness :
    exceptIsOk (ExpandNodeModule._expand_node decideAtRoot kbOneInfo ["r"]
      ["A", "B"]) = true :=
  (C1_expand_node_content_preserving decideAtRoot kbOneInfo
    ⟨.node "r" [] none false
        [.node "A" [] none false [], .node "B" [] none false []],
      [(0, infoW)], 1⟩
    ["r"] ["A", "B"] [infoW] (by decide) rfl
    (by unfold keysNodup; decide)
    (fun it => ⟨["r"], rfl,
      KnowledgeNode.node "r" [] none false
        [.node "A" [] none false [], .node "B" [] none false []],
      rfl, "r", [], rfl, rfl, Or.inr rfl⟩)).1

/-- Counterexample to claim C1 as stated: when the re-insertion collaborator fails
(its exception is caught and degraded to "no placement"), the expanded node's
former id is dropped — the subtree content set shrinks from the singleton id set to
the empty set. -/
theorem C1_expand_node_loses_id_on_failure :
    ExpandNodeModule._expand_node decideFail kbOneInfo ["r"] ["A", "B"] =
      .ok ⟨.node "r" [] none false
            [.node "A" [] none false [], .node "B" [] none false []],
          [(0, infoW)], 1⟩ ∧
    ccAtFull kbOneInfo.root ["r"] = {0} ∧
    ccAtFull (KnowledgeNode.node "r" [] none false
        [.node "A" [] none false [], .node "B" [] none false []]) ["r"] = ∅ :=
  ⟨rfl, by decide, by decide⟩

/-! ### Lemmas about `ExpandNodeModule.forward` -/

mutual

/-- The pre-order scan never returns an already-expanded node. -/
theorem find_first_notmem : ∀ (n : KnowledgeNode) (trigger : Nat)
    (expanded : List (List String)) (above p : List String),
    ExpandNodeModule.find_first_node_to_expand trigger expanded above n = some p →
    p ∉ expanded
  | .node nm c s r ch, trigger, expanded, above, p => by
    intro h
    simp only [ExpandNodeModule.find_first_node_to_expand] at h
    by_cases hcond : (above ++ [nm]) ∉ expanded ∧ trigger ≤ c.length
    · rw [if_pos hcond] at h
      cases h
      exact hcond.1
    · rw [if_neg hcond] at h
      exact findChildren_notmem ch trigger expanded (above ++ [nm]) p h

theorem findChildren_notmem : ∀ (ch : List KnowledgeNode) (trigger : Nat)
    (expanded : List (List String)) (myPath p : List String),
    ExpandNodeModule.findFirstInChildren trigger expanded myPath ch = some p →
    p ∉ expanded
  | [], _, _, _, _ => by
    intro h
    simp [ExpandNodeModule.findFirstInChildren] at h
  | child :: rest, trigger, expanded, myPath, p => by
    intro h
    simp only [ExpandNodeModule.findFirstInChildren] at h
    cases hstep : ExpandNodeModule.find_first_node_to_expand trigger expanded myPath
        child with
    | some q =>
      simp only [hstep] at h
      cases h
      exact find_first_notmem child trigger expanded myPath p hstep
    | none =>
      simp only [hstep] at h
      exact findChildren_notmem rest trigger expanded myPath p h

end

/-- Loop invariant of `ExpandNodeModule.forward`: the expanded-node list stays
duplicate-free, and a `done` run ends exactly when the scan finds nothing. -/
theorem forwardFuel_spec (decideE : DecideFn)
    (propose : KnowledgeBase → List String → List String) (trigger : Nat) :
    ∀ (fuel : Nat) (kb : KnowledgeBase) (expanded : List (List String))
      (run : ExpandNodeModule.ExpandRun), expanded.Nodup →
      ExpandNodeModule.forwardFuel decideE propose trigger fuel kb expanded =
        .ok run →
      run.expanded.Nodup ∧ (run.done = true →
        ExpandNodeModule.find_first_node_to_expand trigger run.expanded []
          run.kb.root = none) := by
  intro fuel
  induction fuel with
  | zero =>
    intro kb expanded run hnd h
    simp only [ExpandNodeModule.forwardFuel] at h
    cases h
    exact ⟨hnd, fun hdone => by cases hdone⟩
  | succ fuel ih =>
    intro kb expanded run hnd h
    simp only [ExpandNodeModule.forwardFuel] at h
    cases hfind : ExpandNodeModule.find_first_node_to_expand trigger expanded []
        kb.root with
    | none =>
      simp only [hfind] at h
      cases h
      exact ⟨hnd, fun _ => hfind⟩
    | some p =>
      simp only [hfind] at h
      cases hexp : ExpandNodeModule._expand_node decideE kb p (propose kb p) with
      | ok kb' =>
        simp only [hexp] at h
        refine ih kb' (expanded ++ [p]) run ?_ h
        have hp : p ∉ expanded := find_first_notmem kb.root trigger expanded [] p hfind
        simpa [List.nodup_append] using ⟨hnd, hp⟩
      | error e => simp only [hexp] at h; cases h

/-! ### An adversarial instance on which the expansion loop never terminates -/

/-- The expansion-proposal collaborator that always proposes the two sub-nodes `A`
and `B`. -/
def proposeAB : KnowledgeBase → List String → List String := fun _ _ => ["A", "B"]

/-- The `B` sibling created at each expansion (never visited by the scan). -/
def bLeaf : KnowledgeNode := .node "B" [] none false []

/-- The left spine after `k` expansions: a chain of `A` nodes with `B` siblings. -/
def chainA : Nat → KnowledgeNode
  | 0 => .node "A" [] none false []
  | k + 1 => .node "A" [] none false [chainA k, bLeaf]

/-- Grafting a subtree at the end of a `j`-deep `A` spine. -/
def graftA : Nat → KnowledgeNode → KnowledgeNode
  | 0, x => x
  | j + 1, x => .node "A" [] none false [graftA j x, bLeaf]

/-- The root after `k` expansions. -/
def advRoot : Nat → KnowledgeNode
  | 0 => .node "r" [] none false []
  | k + 1 => .node "r" [] none false [chainA k, bLeaf]

def advKb (k : Nat) : KnowledgeBase := ⟨advRoot k, [], 0⟩

/-- The path of the node expanded at step `k`. -/
def pathAdv (j : Nat) : List String := "r" :: List.replicate j "A"

/-- The expanded-node list after `k` steps. -/
def advExpanded (k : Nat) : List (List String) := (List.range k).map pathAdv

theorem chainA_name (j : Nat) : (chainA j).name = "A" := by
  cases j <;> rfl

theorem graftA_name (j : Nat) (x : KnowledgeNode) (hx : x.name = "A") :
    (graftA j x).name = "A" := by
  cases j with
  | zero => exact hx
  | succ j => rfl

theorem graftA_chainA (j i : Nat) : graftA j (chainA i) = chainA (j + i) := by
  induction j with
  | zero => simp [graftA]
  | succ j ih =>
    show KnowledgeNode.node "A" [] none false [graftA j (chainA i), bLeaf] = _
    rw [ih, show j + 1 + i = (j + i) + 1 by omega]
    rfl

theorem pathAdv_length (j : Nat) : (pathAdv j).length = j + 1 := by
  simp [pathAdv]

theorem pathAdv_mem_advExpanded (t k : Nat) (h : t < k) :
    pathAdv t ∈ advExpanded k := by
  exact List.mem_map.mpr ⟨t, List.mem_range.mpr h, rfl⟩

theorem pathAdv_k_notmem (k : Nat) : pathAdv k ∉ advExpanded k := by
  intro hmem
  obtain ⟨j, hj, hpath⟩ := List.mem_map.mp hmem
  have := congrArg List.length hpath
  rw [pathAdv_length, pathAdv_length] at this
  rw [List.mem_range] at hj
  omega

/-- The pre-order scan on an `A` spine whose proper initial segments are all
expanded returns the spine's leaf. -/
theorem find_chainA : ∀ (j : Nat) (pre : List String) (E : List (List String)),
    (∀ t, 1 ≤ t → t ≤ j → pre ++ List.replicate t "A" ∈ E) →
    (pre ++ List.replicate (j + 1) "A") ∉ E →
    ExpandNodeModule.find_first_node_to_expand 0 E pre (chainA j) =
      some (pre ++ List.replicate (j + 1) "A") := by
  intro j
  induction j with
  | zero =>
    intro pre E _ h2
    simp only [chainA, ExpandNodeModule.find_first_node_to_expand]
    rw [if_pos ⟨by simpa [List.replicate] using h2, by simp⟩]
    simp [List.replicate]
  | succ j ih =>
    intro pre E h1 h2
    simp only [chainA, ExpandNodeModule.find_first_node_to_expand]
    rw [if_neg ?hneg]
    case hneg =>
      intro hcond
      exact hcond.1 (by simpa [List.replicate] using h1 1 le_rfl (by omega))
    simp only [ExpandNodeModule.findFirstInChildren]
    rw [ih (pre ++ ["A"]) E ?h1s ?h2s]
    case h1s =>
      intro t ht1 htj
      have : pre ++ ["A"] ++ List.replicate t "A" = pre ++ List.replicate (t + 1) "A" := by
        rw [List.append_assoc]
        rfl
      rw [this]
      exact h1 (t + 1) (by omega) (by omega)
    case h2s =>
      have : pre ++ ["A"] ++ List.replicate (j + 1) "A" =
          pre ++ List.replicate (j + 2) "A" := by
        rw [List.append_assoc]
        rfl
      rw [this]
      exact h2
    have : pre ++ ["A"] ++ List.replicate (j + 1) "A" =
        pre ++ List.replicate (j + 1 + 1) "A" := by
      rw [List.append_assoc]
      rfl
    rw [this]

theorem getChild?_spine (j : Nat) (x : KnowledgeNode) (hx : x.name = "A") :
    KnowledgeNode.getChild? [graftA j x, bLeaf] "A" = some (graftA j x) := by
  rw [KnowledgeNode.getChild?_cons, if_pos (graftA_name j x hx)]

theorem locateRel_graft : ∀ (j : Nat) (x : KnowledgeNode), x.name = "A" →
    KnowledgeNode.locateRel (graftA j x) (List.replicate j "A") = some x := by
  intro j
  induction j with
  | zero => intro x _; rfl
  | succ j ih =>
    intro x hx
    show KnowledgeNode.locateRel (.node "A" [] none false [graftA j x, bLeaf])
      ("A" :: List.replicate j "A") = some x
    simp only [KnowledgeNode.locateRel, KnowledgeNode.children_node]
    rw [getChild?_spine j x hx]
    exact ih x hx

theorem modifyRel_graft : ∀ (j : Nat) (x m' : KnowledgeNode)
    (f : KnowledgeNode → Except String KnowledgeNode), x.name = "A" → f x = .ok m' →
    KnowledgeNode.modifyRel (graftA j x) (List.replicate j "A") f =
      .ok (graftA j m') := by
  intro j
  induction j with
  | zero => intro x m' f _ hf; exact hf
  | succ j ih =>
    intro x m' f hx hf
    show KnowledgeNode.modifyRel (.node "A" [] none false [graftA j x, bLeaf])
      ("A" :: List.replicate j "A") f = _
    simp only [KnowledgeNode.modifyRel, KnowledgeNode.children_node]
    rw [getChild?_spine j x hx]
    simp only [ih x m' f hx hf]
    rw [KnowledgeNode.replaceChildNamed_cons, if_pos (graftA_name j x hx)]
    rfl

/-- Modifying along the spine below the adversarial root. -/
theorem modifyRel_rooted (m : Nat) (x m' : KnowledgeNode)
    (f : KnowledgeNode → Except String KnowledgeNode) (hx : x.name = "A")
    (hf : f x = .ok m') :
    KnowledgeNode.modifyRel (.node "r" [] none false [graftA m x, bLeaf])
      (List.replicate (m + 1) "A") f =
    .ok (.node "r" [] none false [graftA m m', bLeaf]) := by
  show KnowledgeNode.modifyRel _ ("A" :: List.replicate m "A") f = _
  simp only [KnowledgeNode.modifyRel, KnowledgeNode.children_node]
  rw [getChild?_spine m x hx]
  simp only [modifyRel_graft m x m' f hx hf]
  rw [KnowledgeNode.replaceChildNamed_cons, if_pos (graftA_name m x hx)]
  rfl

theorem locateRel_rooted (m : Nat) (x : KnowledgeNode) (hx : x.name = "A") :
    KnowledgeNode.locateRel (.node "r" [] none false [graftA m x, bLeaf])
      (List.replicate (m + 1) "A") = some x := by
  show KnowledgeNode.locateRel _ ("A" :: List.replicate m "A") = _
  simp only [KnowledgeNode.locateRel, KnowledgeNode.children_node]
  rw [getChild?_spine m x hx]
  exact locateRel_graft m x hx

/-- The spine leaf after the first `insert_node` of an expansion step. -/
def leafA1 : KnowledgeNode := .node "A" [] none false [KnowledgeNode.fresh "A"]

/-- One expansion step of the adversarial run at depth `m + 1`. -/
theorem expand_step_succ (m : Nat) :
    ExpandNodeModule._expand_node decideFail (advKb (m + 1)) (pathAdv (m + 1))
      ["A", "B"] = .ok (advKb (m + 2)) := by
  have hchain0 : chainA m = graftA m (chainA 0) := by
    rw [graftA_chainA]
    rfl
  have hchain1 : graftA m (chainA 1) = chainA (m + 1) := by
    rw [graftA_chainA]
  have hfA : (fun parent : KnowledgeNode =>
      if (KnowledgeNode.getChild? parent.children "A").isSome then
        (.error ("DuplicateNameError: " ++ "A") : Except String KnowledgeNode)
      else .ok (parent.withChildren (parent.children ++ [KnowledgeNode.fresh "A"])))
      (chainA 0) = .ok leafA1 := rfl
  have hfB : (fun parent : KnowledgeNode =>
      if (KnowledgeNode.getChild? parent.children "B").isSome then
        (.error ("DuplicateNameError: " ++ "B") : Except String KnowledgeNode)
      else .ok (parent.withChildren (parent.children ++ [KnowledgeNode.fresh "B"])))
      leafA1 = .ok (chainA 1) := rfl
  have hins1 : insert_node (advKb (m + 1)) (pathAdv (m + 1)) "A" =
      .ok ⟨.node "r" [] none false [graftA m leafA1, bLeaf], [], 0⟩ := by
    simp only [insert_node, advKb, advRoot, pathAdv, KnowledgeNode.modifyFull]
    rw [if_pos (by rfl), hchain0, modifyRel_rooted m (chainA 0) leafA1 _ rfl hfA]
  have hins2 : insert_node ⟨.node "r" [] none false [graftA m leafA1, bLeaf], [], 0⟩
      (pathAdv (m + 1)) "B" = .ok (advKb (m + 2)) := by
    simp only [insert_node, pathAdv, KnowledgeNode.modifyFull]
    rw [if_pos (by rfl), modifyRel_rooted m leafA1 (chainA 1) _ rfl hfB]
    simp only [advKb, advRoot]
    rw [hchain1]
  have hloc : KnowledgeNode.locateFull (advRoot (m + 2)) (pathAdv (m + 1)) =
      some (chainA 1) := by
    simp only [advRoot, pathAdv, KnowledgeNode.locateFull]
    rw [if_pos (by rfl), show chainA (m + 1) = graftA m (chainA 1) from hchain1.symm,
      locateRel_rooted m (chainA 1) rfl]
  have hclear : KnowledgeNode.modifyFull (advRoot (m + 2)) (pathAdv (m + 1))
      (fun mm : KnowledgeNode => .ok (mm.withContent [])) = .ok (advRoot (m + 2)) := by
    simp only [advRoot, pathAdv, KnowledgeNode.modifyFull]
    rw [if_pos (by rfl), show chainA (m + 1) = graftA m (chainA 1) from hchain1.symm,
      modifyRel_rooted m (chainA 1) (chainA 1)
        (fun mm : KnowledgeNode => .ok (mm.withContent [])) rfl rfl]
  have hstage : ExpandNodeModule.expandStage1 (advKb (m + 1)) (pathAdv (m + 1))
      ["A", "B"] = .ok (advKb (m + 2), []) := by
    simp only [ExpandNodeModule.expandStage1, ExpandNodeModule.insertNewNodes,
      show ExpandNodeModule.removeCitationBrackets "A" = "A" from rfl,
      show ExpandNodeModule.removeCitationBrackets "B" = "B" from rfl,
      hins1, hins2]
    rw [show (advKb (m + 2)).root = advRoot (m + 2) from rfl, hloc]
    simp only [show (chainA 1).content = [] from rfl, ExpandNodeModule.gatherInfos]
    rw [hclear]
    rfl
  simp only [ExpandNodeModule._expand_node, hstage]
  rfl

theorem expand_step_zero :
    ExpandNodeModule._expand_node decideFail (advKb 0) (pathAdv 0) ["A", "B"] =
      .ok (advKb 1) := rfl

theorem expand_step (k : Nat) :
    ExpandNodeModule._expand_node decideFail (advKb k) (pathAdv k) ["A", "B"] =
      .ok (advKb (k + 1)) := by
  cases k with
  | zero => exact expand_step_zero
  | succ m => exact expand_step_succ m

/-- The scan at adversarial state `k` returns the spine leaf's path. -/
theorem find_adv (k : Nat) :
    ExpandNodeModule.find_first_node_to_expand 0 (advExpanded k) [] (advRoot k) =
      some (pathAdv k) := by
  cases k with
  | zero => rfl
  | succ m =>
    simp only [advRoot, ExpandNodeModule.find_first_node_to_expand, List.nil_append]
    have h1 : ∀ t, 1 ≤ t → t ≤ m →
        ["r"] ++ List.replicate t "A" ∈ advExpanded (m + 1) := by
      intro t ht1 htm
      simpa [pathAdv] using pathAdv_mem_advExpanded t (m + 1) (by omega)
    have h2 : (["r"] ++ List.replicate (m + 1) "A") ∉ advExpanded (m + 1) := by
      simpa [pathAdv] using pathAdv_k_notmem (m + 1)
    have hmem0 : (["r"] : List String) ∈ advExpanded (m + 1) :=
      pathAdv_mem_advExpanded 0 (m + 1) (Nat.succ_pos m)
    rw [if_neg (fun hc => hc.1 hmem0)]
    simp only [ExpandNodeModule.findFirstInChildren]
    rw [find_chainA m ["r"] (advExpanded (m + 1)) h1 h2]
    simp [pathAdv]

theorem advExpanded_succ (k : Nat) :
    advExpanded k ++ [pathAdv k] = advExpanded (k + 1) := by
  simp [advExpanded, List.range_succ]

/-- The adversarial run is never done, whatever the fuel. -/
theorem run_adv : ∀ (fuel k : Nat),
    ExpandNodeModule.forwardFuel decideFail proposeAB 0 fuel (advKb k)
      (advExpanded k) = .ok ⟨advKb (k + fuel), advExpanded (k + fuel), false⟩ := by
  intro fuel
  induction fuel with
  | zero => intro k; rfl
  | succ fuel ih =>
    intro k
    simp only [ExpandNodeModule.forwardFuel,
      show (advKb k).root = advRoot k from rfl, find_adv k,
      show proposeAB (advKb k) (pathAdv k) = ["A", "B"] from rfl, expand_step k,
      advExpanded_succ k]
    rw [ih (k + 1), show k + 1 + fuel = k + (fuel + 1) by omega]

/-- Claim C6 (amended): during one `ExpandNodeModule.forward` call each node is
expanded at most once (the expanded-path list is duplicate-free for any fuel), and
the loop ends exactly when no unexpanded node reaches the trigger count. -/
theorem C6_each_node_expanded_at_most_once (decideE : DecideFn)
    (propose : KnowledgeBase → List String → List String) (trigger fuel : Nat)
    (kb : KnowledgeBase) (run : ExpandNodeModule.ExpandRun)
    (h : ExpandNodeModule.forwardFuel decideE propose trigger fuel kb [] = .ok run) :
    run.expanded.Nodup ∧ (run.done = true →
      ExpandNodeModule.find_first_node_to_expand trigger run.expanded []
        run.kb.root = none) :=
  forwardFuel_spec decideE propose trigger fuel kb [] run List.nodup_nil h

/-- Witness for C6 at a terminating concrete run (trigger above the content
size). -/
theorem C6_each_node_expanded_at_most_once_witness :
    (⟨kbOneInfo, [], true⟩ : ExpandNodeModule.ExpandRun).expanded.Nodup ∧
    ((⟨kbOneInfo, [], true⟩ : ExpandNodeModule.ExpandRun).done = true →
      ExpandNodeModule.find_first_node_to_expand 5
        (⟨kbOneInfo, [], true⟩ : ExpandNodeModule.ExpandRun).expanded []
        (⟨kbOneInfo, [], true⟩ : ExpandNodeModule.ExpandRun).kb.root = none) :=
  C6_each_node_expanded_at_most_once decideFail proposeAB 5 1 kbOneInfo
    ⟨kbOneInfo, [], true⟩ rfl

/-- Counterexample to claim C6 as stated: `ExpandNodeModule.forward` need not
terminate.  With trigger count 0, a collaborator that always proposes two
sub-nodes, and a root-only knowledge base, the loop runs forever: every fuel bound
is exhausted before the scan ever comes back empty, because each expansion creates
a fresh qualifying node. -/
theorem C6_forward_can_run_forever :
    ¬ ExpandNodeModule.forwardTerminates decideFail proposeAB 0 kbEmptyRoot := by
  rintro ⟨fuel, run, heq, hdone⟩
  have h0 : ExpandNodeModule.forwardFuel decideFail proposeAB 0 fuel kbEmptyRoot [] =
      .ok ⟨advKb fuel, advExpanded fuel, false⟩ := by
    have := run_adv fuel 0
    simpa [show advKb 0 = kbEmptyRoot from rfl,
      show advExpanded 0 = ([] : List (List String)) from rfl] using this
  rw [h0] at heq
  cases heq
  cases hdone

/-! ### Lemmas about the embedding-ranking shortcut -/

theorem insertDescBy_perm (x : Int × String) :
    ∀ l, (insertDescBy x l).Perm (x :: l) := by
  intro l
  induction l with
  | nil => simp [insertDescBy]
  | cons y ys ih =>
    simp only [insertDescBy]
    by_cases hc : y.1 ≤ x.1
    · rw [if_pos hc]
    · rw [if_neg hc]
      exact (ih.cons y).trans (List.Perm.swap x y ys)

theorem sortDescPairs_perm : ∀ l, (sortDescPairs l).Perm l := by
  intro l
  induction l with
  | nil => simp [sortDescPairs]
  | cons x xs ih =>
    simp only [sortDescPairs]
    exact (insertDescBy_perm x (sortDescPairs xs)).trans (ih.cons x)

theorem get_sorted_perm (scores : List Int) (outlines : List String)
    (hlen : scores.length = outlines.length) :
    (get_sorted_embed_sim_section scores outlines).Perm outlines := by
  have hmap : (scores.zip outlines).map Prod.snd = outlines :=
    List.map_snd_zip scores outlines (le_of_eq hlen.symm)
  have := (sortDescPairs_perm (scores.zip outlines)).map Prod.snd
  rw [hmap] at this
  exact this

theorem get_sorted_length (scores : List Int) (outlines : List String)
    (hlen : scores.length = outlines.length) :
    (get_sorted_embed_sim_section scores outlines).length = outlines.length :=
  (get_sorted_perm scores outlines hlen).length_eq

theorem get_sorted_mem (scores : List Int) (outlines : List String)
    (hlen : scores.length = outlines.length) (x : String)
    (hx : x ∈ get_sorted_embed_sim_section scores outlines) : x ∈ outlines :=
  (get_sorted_perm scores outlines hlen).mem_iff.mp hx

/-- Claim C10: `choose_candidate_from_embedding_ranking` returns `none` or a
prediction whose placement is one of the given outlines; a parsed index `i` is
accepted exactly when `1 ≤ i ≤ |outlines|` — the bound of the full
similarity-sorted list, not of the at-most-`top_N_candidates` shown to the model.
The last conjunct exhibits this at six outlines with five displayed: index 6 is
accepted and the returned placement is a candidate that was never displayed. -/
theorem C10_choose_candidate_bounds (decision : String) (scores : List Int)
    (hasEmbedding : Bool) (outlines : List String) (top_N_candidates : Nat)
    (hlen : scores.length = outlines.length) :
    (∀ pred, choose_candidate_from_embedding_ranking decision scores hasEmbedding
        outlines top_N_candidates = some pred →
      pred.information_placement ∈ outlines) ∧
    (∀ i : Int, containsSub (removeThinkTags decision) "最佳放置：" = true →
      parse_selected_index (trim_output_after_hint (removeThinkTags decision)
          "最佳放置：") = some i →
      ((choose_candidate_from_embedding_ranking decision scores hasEmbedding
          outlines top_N_candidates).isSome = true ↔
        (1 ≤ i ∧ i ≤ (outlines.length : Int)))) ∧
    ((choose_candidate_from_embedding_ranking "最佳放置：6" [60, 50, 40, 30, 20, 10]
        true ["c1", "c2", "c3", "c4", "c5", "c6"] 5).map
        PlacementPrediction.information_placement = some "c6" ∧
      "c6" ∉ (get_sorted_embed_sim_section [60, 50, 40, 30, 20, 10]
        ["c1", "c2", "c3", "c4", "c5", "c6"]).take
          (min (get_sorted_embed_sim_section [60, 50, 40, 30, 20, 10]
            ["c1", "c2", "c3", "c4", "c5", "c6"]).length 5)) := by
  set sorted := if hasEmbedding then get_sorted_embed_sim_section scores outlines
    else outlines with hsorted
  have hslen : sorted.length = outlines.length := by
    rw [hsorted]
    cases hasEmbedding with
    | true => simpa using get_sorted_length scores outlines hlen
    | false => simp
  have hsmem : ∀ x ∈ sorted, x ∈ outlines := by
    intro x hx
    rw [hsorted] at hx
    cases hasEmbedding with
    | true => exact get_sorted_mem scores outlines hlen x (by simpa using hx)
    | false => simpa using hx
  have hchoose : choose_candidate_from_embedding_ranking decision scores hasEmbedding
      outlines top_N_candidates =
      (if containsSub (removeThinkTags decision) "最佳放置：" then
        match parse_selected_index (trim_output_after_hint (removeThinkTags decision)
            "最佳放置：") with
        | some i =>
          if i - 1 < (sorted.length : Int) ∧ 0 ≤ i - 1 then
            some ⟨sorted.getD (i - 1).toNat "",
              "Choosing from:\n" ++ joinSep ", "
                (sorted.take (min sorted.length top_N_candidates))⟩
          else none
        | none => none
      else none) := by
    rw [hsorted]
    rfl
  refine ⟨?_, ?_, by decide, by decide⟩
  · intro pred hpred
    rw [hchoose] at hpred
    by_cases hhint : containsSub (removeThinkTags decision) "最佳放置：" = true
    · rw [if_pos hhint] at hpred
      cases hparse : parse_selected_index (trim_output_after_hint
          (removeThinkTags decision) "最佳放置：") with
      | some i =>
        simp only [hparse] at hpred
        by_cases hbound : i - 1 < (sorted.length : Int) ∧ 0 ≤ i - 1
        · rw [if_pos hbound] at hpred
          cases hpred
          have hnat : (i - 1).toNat < sorted.length := by
            have := Int.toNat_of_nonneg hbound.2
            omega
          simp only
          rw [List.getD_eq_getElem _ _ hnat]
          exact hsmem _ (List.getElem_mem hnat)
        · rw [if_neg hbound] at hpred; cases hpred
      | none => simp only [hparse] at hpred; cases hpred
    · rw [if_neg hhint] at hpred; cases hpred
  · intro i hhint hparse
    rw [hchoose, if_pos hhint]
    simp only [hparse]
    by_cases hbound : i - 1 < (sorted.length : Int) ∧ 0 ≤ i - 1
    · rw [if_pos hbound]
      simp only [Option.isSome_some, true_iff]
      rw [hslen] at hbound
      omega
    · rw [if_neg hbound]
      simp only [Option.isSome_none, Bool.false_eq_true, false_iff]
      intro hcon
      refine hbound ⟨?_, ?_⟩
      · rw [hslen]; omega
      · omega

/-- Witness for C10: index 2 of a two-outline list is accepted. -/
theorem C10_choose_candidate_bounds_witness :
    (choose_candidate_from_embedding_ranking "最佳放置：2" [5, 1] true ["x", "y"]
      5).isSome = true :=
  ((C10_choose_candidate_bounds "最佳放置：2" [5, 1] true ["x", "y"] 5 rfl).2.1 2
    rfl rfl).mpr (by decide)

/-- A writer collaborator used in the report instances. -/
def writerConst : KnowledgeNode → String := fun _ => "正文内容"

/-- A knowledge base whose single report node has no content. -/
def kbEmptyChild : KnowledgeBase :=
  ⟨.node "r" [] none false [.node "A" [] none false []], [], 0⟩

/-- Claim C7 (amended): a node with an empty content set contributes no body text
to the report — `gen_section` returns the empty string and the paragraph after
title-dropping is empty — but its heading line (`"#" * level + " " + name` and the
following newline) is still emitted by `forward`'s helper rather than the section
being skipped. -/
theorem C7_empty_node_heading_only (writer : KnowledgeNode → String)
    (node : KnowledgeNode) (level : Nat) (h : node.content = []) :
    ArticleGenerationModule.gen_section writer node = "" ∧
    ArticleGenerationModule.node_generate_paragraph writer node = "" ∧
    (ArticleGenerationModule.reportHelper writer node level).headD "" =
      String.mk (List.replicate level '#') ++ " " ++ node.name ++ "\n" := by
  have hgs : ArticleGenerationModule.gen_section writer node = "" := by
    simp [ArticleGenerationModule.gen_section, h]
  have hsplit : (ArticleGenerationModule.splitNl ("" : String).toList).map String.mk
      = [""] := rfl
  have hpara : ArticleGenerationModule.node_generate_paragraph writer node = "" := by
    simp only [ArticleGenerationModule.node_generate_paragraph, hgs, hsplit]
    rw [show eraseAll (eraseAll (stripWs (([""] : List String).headD "")) "*") "#" = ""
      from rfl]
    by_cases hn : (("" : String) == node.name) = true
    · rw [if_pos hn]; rfl
    · rw [if_neg hn]; rfl
  refine ⟨hgs, hpara, ?_⟩
  cases node with
  | node nm c s r ch =>
    show String.mk (List.replicate level '#') ++ " " ++ nm ++ "\n" ++
        ArticleGenerationModule.node_generate_paragraph writer (.node nm c s r ch) =
      String.mk (List.replicate level '#') ++ " " ++ nm ++ "\n"
    rw [hpara]
    simp

/-- Witness for C7 at a concrete empty node. -/
theorem C7_empty_node_heading_only_witness :
    ArticleGenerationModule.gen_section writerConst
      (.node "History" [] none false []) = "" :=
  (C7_empty_node_heading_only writerConst (.node "History" [] none false []) 1 rfl).1

/-- Counterexample to claim C7 as stated: in a knowledge base whose only
non-root node has an empty content set, the report is the node's heading line
rather than the empty string — the section is emitted with an empty body, not
skipped. -/
theorem C7_empty_node_section_emitted :
    ArticleGenerationModule.forward writerConst kbEmptyChild = "# A\n" ∧
    ("# A\n" : String) ≠ "" ∧
    ArticleGenerationModule.gen_section writerConst
      (.node "A" [] none false []) = "" :=
  ⟨rfl, by decide, rfl⟩

/-- Two prefixes of one string are comparable: one is a prefix of the other. -/
theorem listStartsWith_compat : ∀ (p q l : List Char), listStartsWith l p = true →
    listStartsWith l q = true →
    (listStartsWith p q || listStartsWith q p) = true := by
  intro p
  induction p with
  | nil => intro q l _ _; simp [listStartsWith]
  | cons a p' ih =>
    intro q l hp hq
    cases q with
    | nil => simp [listStartsWith]
    | cons b q' =>
      cases l with
      | nil => simp [listStartsWith] at hp
      | cons c l' =>
        simp only [listStartsWith, Bool.and_eq_true, decide_eq_true_eq] at hp hq
        obtain ⟨rfl, hp'⟩ := hp
        obtain ⟨rfl, hq'⟩ := hq
        simpa [listStartsWith] using ih q' l' hp' hq'

/-- Starting with one of two incomparable prefixes excludes the other. -/
theorem strStartsWith_excl (c p q : String)
    (hpq : (listStartsWith p.toList q.toList || listStartsWith q.toList p.toList) = false)
    (hp : strStartsWith c p = true) : strStartsWith c q = false := by
  by_contra hq
  rw [Bool.not_eq_false] at hq
  rw [listStartsWith_compat p.toList q.toList c.toList hp hq] at hpq
  cases hpq

/-- Claim C4 (amended): the post-parse mapping of `_get_navigation_choice` keys on
six string prefixes of the cleaned output — `insert`, `step`, `create` and their
`"- "`-prefixed variants — mapping each group to its action (with the node name
trimmed after `step:`/`create:`), and raises `UndefinedActionError` exactly when
the cleaned output starts with none of the six. -/
theorem C4_navigation_choice_six_prefixes (s : String) :
    (exceptIsOk (get_navigation_choice s) = false ↔
      (strStartsWith (cleanNavOutput s) "insert" = false ∧
       strStartsWith (cleanNavOutput s) "- insert" = false ∧
       strStartsWith (cleanNavOutput s) "step" = false ∧
       strStartsWith (cleanNavOutput s) "- step" = false ∧
       strStartsWith (cleanNavOutput s) "create" = false ∧
       strStartsWith (cleanNavOutput s) "- create" = false)) ∧
    ((strStartsWith (cleanNavOutput s) "insert" = true ∨
        strStartsWith (cleanNavOutput s) "- insert" = true) →
      get_navigation_choice s = .ok ("insert", "")) ∧
    ((strStartsWith (cleanNavOutput s) "step" = true ∨
        strStartsWith (cleanNavOutput s) "- step" = true) →
      get_navigation_choice s =
        .ok ("step", trim_output_after_hint (cleanNavOutput s) "step:")) ∧
    ((strStartsWith (cleanNavOutput s) "create" = true ∨
        strStartsWith (cleanNavOutput s) "- create" = true) →
      get_navigation_choice s =
        .ok ("create", trim_output_after_hint (cleanNavOutput s) "create:")) := by
  have hnav : get_navigation_choice s =
      (if strStartsWith (cleanNavOutput s) "insert"
          || strStartsWith (cleanNavOutput s) "- insert" then .ok ("insert", "")
       else if strStartsWith (cleanNavOutput s) "step"
          || strStartsWith (cleanNavOutput s) "- step" then
         .ok ("step", trim_output_after_hint (cleanNavOutput s) "step:")
       else if strStartsWith (cleanNavOutput s) "create"
          || strStartsWith (cleanNavOutput s) "- create" then
         .ok ("create", trim_output_after_hint (cleanNavOutput s) "create:")
       else .error ("UndefinedActionError: " ++ s ++ "/" ++ cleanNavOutput s)) := rfl
  by_cases h1 : (strStartsWith (cleanNavOutput s) "insert"
      || strStartsWith (cleanNavOutput s) "- insert") = true
  · rw [hnav, if_pos h1]
    rcases Bool.or_eq_true_iff.mp h1 with ha | ha
    · refine ⟨by simp [exceptIsOk, ha], fun _ => rfl, ?_, ?_⟩
      · rintro (hb | hb)
        · rw [strStartsWith_excl _ "insert" "step" (by decide) ha] at hb; cases hb
        · rw [strStartsWith_excl _ "insert" "- step" (by decide) ha] at hb; cases hb
      · rintro (hb | hb)
        · rw [strStartsWith_excl _ "insert" "create" (by decide) ha] at hb; cases hb
        · rw [strStartsWith_excl _ "insert" "- create" (by decide) ha] at hb; cases hb
    · refine ⟨by simp [exceptIsOk, ha], fun _ => rfl, ?_, ?_⟩
      · rintro (hb | hb)
        · rw [strStartsWith_excl _ "- insert" "step" (by decide) ha] at hb; cases hb
        · rw [strStartsWith_excl _ "- insert" "- step" (by decide) ha] at hb; cases hb
      · rintro (hb | hb)
        · rw [strStartsWith_excl _ "- insert" "create" (by decide) ha] at hb; cases hb
        · rw [strStartsWith_excl _ "- insert" "- create" (by decide) ha] at hb; cases hb
  · rw [Bool.not_eq_true, Bool.or_eq_false_iff] at h1
    obtain ⟨h1a, h1b⟩ := h1
    by_cases h2 : (strStartsWith (cleanNavOutput s) "step"
        || strStartsWith (cleanNavOutput s) "- step") = true
    · rw [hnav, if_neg (by simp [h1a, h1b]), if_pos h2]
      rcases Bool.or_eq_true_iff.mp h2 with ha | ha
      · refine ⟨by simp [exceptIsOk, ha], ?_, fun _ => rfl, ?_⟩
        · rintro (hb | hb)
          · rw [h1a] at hb; cases hb
          · rw [h1b] at hb; cases hb
        · rintro (hb | hb)
          · rw [strStartsWith_excl _ "step" "create" (by decide) ha] at hb; cases hb
          · rw [strStartsWith_excl _ "step" "- create" (by decide) ha] at hb; cases hb
      · refine ⟨by simp [exceptIsOk, ha], ?_, fun _ => rfl, ?_⟩
        · rintro (hb | hb)
          · rw [h1a] at hb; cases hb
          · rw [h1b] at hb; cases hb
        · rintro (hb | hb)
          · rw [strStartsWith_excl _ "- step" "create" (by decide) ha] at hb; cases hb
          · rw [strStartsWith_excl _ "- step" "- create" (by decide) ha] at hb; cases hb
    · rw [Bool.not_eq_true, Bool.or_eq_false_iff] at h2
      obtain ⟨h2a, h2b⟩ := h2
      by_cases h3 : (strStartsWith (cleanNavOutput s) "create"
          || strStartsWith (cleanNavOutput s) "- create") = true
      · rw [hnav, if_neg (by simp [h1a, h1b]), if_neg (by simp [h2a, h2b]), if_pos h3]
        rcases Bool.or_eq_true_iff.mp h3 with ha | ha <;>
          refine ⟨by simp [exceptIsOk, ha], ?_, ?_, fun _ => rfl⟩ <;>
            first
            | (rintro (hb | hb)
               · rw [h1a] at hb; cases hb
               · rw [h1b] at hb; cases hb)
            | (rintro (hb | hb)
               · rw [h2a] at hb; cases hb
               · rw [h2b] at hb; cases hb)
      · rw [Bool.not_eq_true, Bool.or_eq_false_iff] at h3
        obtain ⟨h3a, h3b⟩ := h3
        rw [hnav, if_neg (by simp [h1a, h1b]), if_neg (by simp [h2a, h2b]),
          if_neg (by simp [h3a, h3b])]
        refine ⟨by simp [exceptIsOk, h1a, h1b, h2a, h2b, h3a, h3b], ?_, ?_, ?_⟩
        · rintro (hb | hb)
          · rw [h1a] at hb; cases hb
          · rw [h1b] at hb; cases hb
        · rintro (hb | hb)
          · rw [h2a] at hb; cases hb
          · rw [h2b] at hb; cases hb
        · rintro (hb | hb)
          · rw [h3a] at hb; cases hb
          · rw [h3b] at hb; cases hb

/-- Witness for C4 at a concrete step action (node name trimmed after the hint). -/
theorem C4_navigation_choice_six_prefixes_witness :
    get_navigation_choice "step: nodeX" =
      .ok ("step", trim_output_after_hint (cleanNavOutput "step: nodeX") "step:") :=
  (C4_navigation_choice_six_prefixes "step: nodeX").2.2.1 (Or.inl (by decide))

/-- Counterexample to claim C4 as stated: the cleaned output `"- insert"` starts
with none of the three prefixes `insert`, `step`, `create`, yet no error is raised
— the parser maps it to the insert action via its `"- insert"` prefix case. -/
theorem C4_dash_prefix_not_covered_by_three :
    get_navigation_choice " - insert" = .ok ("insert", "") ∧
    cleanNavOutput " - insert" = "- insert" ∧
    strStartsWith "- insert" "insert" = false ∧
    strStartsWith "- insert" "step" = false ∧
    strStartsWith "- insert" "create" = false :=
  ⟨rfl, rfl, by decide, by decide, by decide⟩

/-- Claim C2 (failing input): in the create-enabled branch all placement decisions
are made against the knowledge base as it was on entry — node creation happens only
in the later insertion loop.  Here the first intent's insertion creates node `N`,
yet the second intent's decision (which files under `N` whenever `N` is visible)
returns the root placement, and `N` exists in the final tree. -/
theorem C2_create_branch_decides_before_mutating :
    InsertInformationModule.forward decideCreateProbe kbEmptyRoot [infoQ1, infoQ2]
        true ["r"] =
      .ok (⟨.node "r" [1] none true [.node "N" [0] none true []],
            [(0, infoQ1), (1, infoQ2)], 2⟩,
           [(infoQ1, some ["r", "N"]), (infoQ2, some ["r"])]) ∧
    ((⟨.node "r" [1] none true [.node "N" [0] none true []],
        [(0, infoQ1), (1, infoQ2)], 2⟩ : KnowledgeBase).root.locateFull
      ["r", "N"]).isSome = true := by
  exact ⟨rfl, rfl⟩

end CoStorm
